import Mathlib

/-!
Verification of the claudeclaw Telegram-agent gateway.

Shallow embedding of the core subsystems, each translated from the
TypeScript source:

* `CQueue`   — per-chat FIFO queue with the global concurrency semaphore
               (`src/queue.ts`: `acquireConcurrency`, `releaseConcurrency`,
               `enqueue`), modelled as a small-step state machine over all
               interleavings.
* `RateLimit` — the per-chat sliding-window rate limiter
               (`src/queue.ts`: `isRateLimited`, `recordMessage`) and the
               admission path of the `message:text` handler (`bot.ts`).
* `MemStore` — the memory table and its ingest path
               (`src/db.ts`: `insertMemory`, `touchMemory`;
               `src/memory.ts`: `saveConversationTurn`,
               `pruneExcessMemories`).
* `Decay`   — salience decay (`src/db.ts`: `decayAllMemories`) over ℝ,
               with the provenance of salience values.
* `Sched`   — the scheduler post-run update (`src/scheduler.ts`:
               `computeNextRun`, `runDueTasks`, `truncateResult`).
* `Agent`   — the agent runner entry (`src/agent.ts`: `runAgent`,
               `handleMessage`).
* `Split`   — message chunking (`src/bot.ts`: `splitMessage`).
-/


-- ═══════════════ Definitions ═══════════════

namespace CQueue

/-- Constant `MAX_CONCURRENT` from `src/queue.ts`. -/
def MAX_CONCURRENT : Nat := 2

/-- Lifecycle of one task passed to `enqueue`, following `src/queue.ts`:
`pend` — the `prev.then` callback has not fired yet (the chat predecessor
has not settled, or the microtask has not been scheduled);
`wait` — the callback ran, `acquireConcurrency` found the semaphore full
and pushed a resolver onto `concurrencyWaiters`;
`grant` — the acquire promise is resolved (fast path, or handed a slot by
`releaseConcurrency`) but the body has not resumed from `await` yet;
`run` — the task body `fn()` is executing;
`done ok` — the task promise settled (`ok = false` when `fn` threw);
release in `finally` has run. -/
inductive TStat where
  | pend : TStat
  | wait : TStat
  | grant : TStat
  | running : TStat
  | done (ok : Bool) : TStat
deriving DecidableEq, Repr

def TStat.isActive : TStat → Bool
  | .wait | .grant | .running => true
  | _ => false

def TStat.isGrant : TStat → Bool
  | .grant => true
  | _ => false

def TStat.isRun : TStat → Bool
  | .running => true
  | _ => false

def TStat.isDone : TStat → Bool
  | .done _ => true
  | _ => false

/-- Shape of one chat's queue implied by the promise chain built in
`enqueue`: a prefix of settled tasks, then at most one task past its
`prev.then` callback (waiting, granted or running), then tasks still
pending on their predecessors. -/
inductive ChainOK : List TStat → Prop where
  | pends (l : List TStat) (hp : ∀ x ∈ l, x = .pend) : ChainOK l
  | act (st : TStat) (l : List TStat) (h : st.isActive = true)
      (hp : ∀ x ∈ l, x = .pend) : ChainOK (st :: l)
  | cons_done (b : Bool) (l : List TStat) (h : ChainOK l) :
      ChainOK (.done b :: l)

/-- Global queue state from `src/queue.ts`: `qs` is the family of per-chat
promise chains (`chatQueues`, one entry per chat id, each task's status in
arrival order), `waiters` is `concurrencyWaiters` (positions of the tasks
whose acquire resolver is queued, FIFO) and `active` is `activeConcurrent`. -/
structure QSt where
  qs : List (List TStat)
  waiters : List (Nat × Nat)
  active : Nat

/-- Status of task `i` of chat `c`. -/
def stOf (qs : List (List TStat)) (c i : Nat) : Option TStat :=
  (qs[c]?).bind fun l => l[i]?

/-- Replace the status of task `i` of chat `c`. -/
def setSt (qs : List (List TStat)) (c i : Nat) (st : TStat) :
    List (List TStat) :=
  match qs[c]? with
  | some l => qs.set c (l.set i st)
  | none => qs

/-- Number of tasks whose status satisfies `p`, across all chats. -/
def cnt (p : TStat → Bool) (qs : List (List TStat)) : Nat :=
  (qs.map (List.countP p)).sum

/-- One interleaved step of the queue system of `src/queue.ts`.
`enqueue` appends a task to a chat's chain. A task whose chat predecessor
has settled (or which is first in its chain) runs the `prev.then` callback
and calls `acquireConcurrency`: with a free slot it increments
`activeConcurrent` and is granted (`startFast`), otherwise its resolver is
pushed onto `concurrencyWaiters` (`startWait`). A granted task resumes its
body (`resume`). A finishing body (either outcome `b`) runs
`releaseConcurrency` in `finally`: with no waiter it decrements
`activeConcurrent` (`finishLast`), otherwise it pops the first waiter and
grants it the slot (`finishHand`). -/
inductive Step : QSt → QSt → Prop where
  | enqueue (s : QSt) (c : Nat) (l : List TStat)
      (hc : s.qs[c]? = some l) :
      Step s ⟨s.qs.set c (l ++ [.pend]), s.waiters, s.active⟩
  | startFast (s : QSt) (c i : Nat) (l : List TStat)
      (hc : s.qs[c]? = some l) (hi : l[i]? = some .pend)
      (hprev : i = 0 ∨ ∃ b, l[i - 1]? = some (.done b))
      (hcap : s.active < MAX_CONCURRENT) :
      Step s ⟨s.qs.set c (l.set i .grant), s.waiters, s.active + 1⟩
  | startWait (s : QSt) (c i : Nat) (l : List TStat)
      (hc : s.qs[c]? = some l) (hi : l[i]? = some .pend)
      (hprev : i = 0 ∨ ∃ b, l[i - 1]? = some (.done b))
      (hcap : ¬ s.active < MAX_CONCURRENT) :
      Step s ⟨s.qs.set c (l.set i .wait), s.waiters ++ [(c, i)], s.active⟩
  | resume (s : QSt) (c i : Nat) (l : List TStat)
      (hc : s.qs[c]? = some l) (hi : l[i]? = some .grant) :
      Step s ⟨s.qs.set c (l.set i .running), s.waiters, s.active⟩
  | finishLast (s : QSt) (c i : Nat) (l : List TStat) (b : Bool)
      (hc : s.qs[c]? = some l) (hi : l[i]? = some .running)
      (hw : s.waiters = []) :
      Step s ⟨s.qs.set c (l.set i (.done b)), [], s.active - 1⟩
  | finishHand (s : QSt) (c i : Nat) (l : List TStat) (b : Bool)
      (w : Nat × Nat) (rest : List (Nat × Nat))
      (hc : s.qs[c]? = some l) (hi : l[i]? = some .running)
      (hw : s.waiters = w :: rest) :
      Step s ⟨setSt (s.qs.set c (l.set i (.done b))) w.1 w.2 .grant,
        rest, s.active⟩

/-- All chats start with empty chains, no waiter, no active slot. -/
def init (n : Nat) : QSt := ⟨List.replicate n [], [], 0⟩

/-- Reachable states under any interleaving, starting from `n` idle chats. -/
def Reach (n : Nat) (s : QSt) : Prop := Relation.ReflTransGen Step (init n) s

/-- Inductive invariant of the queue system: the semaphore count is capped
by `MAX_CONCURRENT`, equals the number of granted-plus-running tasks (no
slot is ever leaked, whatever the task outcomes), every chain has the
settled-prefix shape, and `concurrencyWaiters` lists exactly the
slot-waiting tasks, without duplicates, and is nonempty only at full
capacity. -/
structure Inv (s : QSt) : Prop where
  cap : s.active ≤ MAX_CONCURRENT
  acc : s.active = cnt TStat.isGrant s.qs + cnt TStat.isRun s.qs
  chains : ∀ l ∈ s.qs, ChainOK l
  wst : ∀ w ∈ s.waiters, stOf s.qs w.1 w.2 = some .wait
  wnd : s.waiters.Nodup
  wcap : s.waiters ≠ [] → s.active = MAX_CONCURRENT
  wall : ∀ c i, stOf s.qs c i = some .wait → (c, i) ∈ s.waiters

end CQueue

namespace RateLimit

/-- Constant `MAX_MESSAGES_PER_MINUTE` from `src/config.ts`. -/
def MAX_MESSAGES_PER_MINUTE : Nat := 10

/-- `isRateLimited` from `src/queue.ts`: prune window entries older than
60 s (keep `now - t < 60_000`), store the pruned list back, and report
whether the pruned list still holds `MAX_MESSAGES_PER_MINUTE` or more
entries. Returns the stored window together with the verdict. -/
def isRateLimited (now : Int) (window : List Int) : List Int × Bool :=
  let recent := window.filter fun t => decide (now - t < 60000)
  (recent, decide (MAX_MESSAGES_PER_MINUTE ≤ recent.length))

/-- `recordMessage` from `src/queue.ts`: push the current time. -/
def recordMessage (now : Int) (window : List Int) : List Int :=
  window ++ [now]

/-- Whether `t` lies in the 60 000 ms interval starting at `a`. -/
def inWin (a t : Int) : Bool := decide (a ≤ t) && decide (t < a + 60000)

/-- One admission attempt for a chat, following the handlers in `bot.ts`:
probe `isRateLimited`; when limited, reply and drop; otherwise, when the
event is a message (`e.2 = true`), `enqueue` runs `recordMessage`; a
check-only probe (`e.2 = false`, the command handlers) never appends.
State: (stored window, times admitted so far). -/
def admitStep (s : List Int × List Int) (e : Int × Bool) :
    List Int × List Int :=
  let res := isRateLimited e.1 s.1
  if res.2 then (res.1, s.2)
  else if e.2 then (recordMessage e.1 res.1, s.2 ++ [e.1])
  else (res.1, s.2)

/-- Process a chat's whole event sequence from the initial empty window. -/
def runAdmissions (es : List (Int × Bool)) : List Int × List Int :=
  es.foldl admitStep ([], [])

end RateLimit

namespace MemStore

/-- Constant `MAX_MEMORIES_PER_CHAT` from `src/memory.ts`. -/
def MAX_MEMORIES_PER_CHAT : Nat := 200

inductive Sector where
  | semantic : Sector
  | episodic : Sector
deriving DecidableEq, Repr

/-- A row of the `memories` table (`src/db.ts` schema). Salience is
carried in ℚ: the ingest / touch / prune paths only add, take `MIN`
against the 5.0 cap and compare saliences, so exact rationals model the
SQL `REAL` column faithfully on those paths. -/
structure Mem where
  id : Nat
  chat_id : String
  topic_key : Option String
  content : String
  sector : Sector
  salience : ℚ
  created_at : Int
  accessed_at : Int
deriving DecidableEq, Repr

/-- `insertMemory` from `src/db.ts`: INSERT with the schema defaults
`salience = 1.0`, `created_at = accessed_at = unixepoch()`; `id` is the
next AUTOINCREMENT rowid. -/
def insertMemory (rows : List Mem) (id : Nat) (chatId : String)
    (content : String) (sector : Sector) (topicKey : Option String)
    (now : Int) : List Mem :=
  rows ++ [⟨id, chatId, topicKey, content, sector, 1, now, now⟩]

/-- `touchMemory` from `src/db.ts`:
`accessed_at = unixepoch(), salience = MIN(salience + boost, 5.0)` on the
row with the given id; the boost defaults to 0.1. -/
def touchMemory (rows : List Mem) (id : Nat) (now : Int)
    (salienceBoost : ℚ := 1/10) : List Mem :=
  rows.map fun r =>
    if r.id = id then
      { r with accessed_at := now,
               salience := min (r.salience + salienceBoost) 5 }
    else r

/-- `getMemoryStats` from `src/db.ts`: per-sector counts for a chat
(semantic, episodic); the reported `total` is their sum. -/
def getMemoryStats (rows : List Mem) (chatId : String) : Nat × Nat :=
  (rows.countP fun r =>
      decide (r.chat_id = chatId) && decide (r.sector = Sector.semantic),
   rows.countP fun r =>
      decide (r.chat_id = chatId) && decide (r.sector = Sector.episodic))

/-- Number of memory rows of a chat. -/
def memCount (rows : List Mem) (chatId : String) : Nat :=
  rows.countP fun r => decide (r.chat_id = chatId)

/-- The `ORDER BY salience ASC, accessed_at ASC` key of the pruning
DELETE in `src/memory.ts`. -/
def keyLe (a b : Mem) : Bool :=
  decide (a.salience < b.salience) ||
    (decide (a.salience = b.salience) && decide (a.accessed_at ≤ b.accessed_at))

/-- `pruneExcessMemories` from `src/memory.ts`: when the chat's total
exceeds `MAX_MEMORIES_PER_CHAT`, delete the `excess` rows of that chat
that come first in ascending `(salience, accessed_at)` order. -/
def pruneExcessMemories (rows : List Mem) (chatId : String) : List Mem :=
  let stats := getMemoryStats rows chatId
  let total := stats.1 + stats.2
  if total ≤ MAX_MEMORIES_PER_CHAT then rows
  else
    let excess := total - MAX_MEMORIES_PER_CHAT
    let mine := rows.filter fun r => decide (r.chat_id = chatId)
    let doomed := ((mine.mergeSort keyLe).take excess).map Mem.id
    rows.filter fun r => decide (r.id ∉ doomed)

/-- `truncate` from `src/memory.ts`. -/
def truncate (text : String) (maxLen : Nat) : String :=
  if text.length ≤ maxLen then text
  else text.take (maxLen - 3) ++ "..."

/-- The insert loop over the extracted semantic facts in
`saveConversationTurn` (`src/memory.ts`); each fact was already truncated
to 300 chars by `extractSemanticFacts`. Threads the AUTOINCREMENT id. -/
def insertFacts (rows : List Mem) (nextId : Nat) (chatId : String)
    (facts : List String) (now : Int) : List Mem × Nat :=
  facts.foldl
    (fun s f => (insertMemory s.1 s.2 chatId f .semantic none now, s.2 + 1))
    (rows, nextId)

/-- The insert phase of `saveConversationTurn` (`src/memory.ts`): the
user message becomes an episodic memory when longer than 20 chars and not
a command; then every extracted semantic fact is inserted. The
conversation-log appends do not touch the memories table. The semantic
facts extracted from the agent reply by `extractSemanticFacts` enter as
the list `facts`; the theorems quantify over every possible extraction
result. -/
def ingestInserts (rows : List Mem) (nextId : Nat) (chatId : String)
    (userMessage : String) (facts : List String) (now : Int) : List Mem :=
  let s1 : List Mem × Nat :=
    if 20 < userMessage.length && !(userMessage.startsWith ("/")) then
      (insertMemory rows nextId chatId (truncate userMessage 500)
        .episodic none now, nextId + 1)
    else (rows, nextId)
  (insertFacts s1.1 s1.2 chatId facts now).1

/-- `saveConversationTurn` from `src/memory.ts`, memory-table part:
inserts, then `pruneExcessMemories`. -/
def saveConversationTurn (rows : List Mem) (nextId : Nat) (chatId : String)
    (userMessage : String) (facts : List String) (now : Int) : List Mem :=
  pruneExcessMemories (ingestInserts rows nextId chatId userMessage facts now)
    chatId

end MemStore

namespace Decay

/-- Constant `MEMORY_DECAY_FACTOR` from `src/config.ts`. -/
noncomputable def MEMORY_DECAY_FACTOR : ℝ := 0.98

/-- Constant `MEMORY_MIN_SALIENCE` from `src/config.ts`. -/
noncomputable def MEMORY_MIN_SALIENCE : ℝ := 0.1

/-- The columns of a `memories` row read and written by
`decayAllMemories` (`src/db.ts`). Salience lives in ℝ because the decay
multiplier `0.98 ^ hours` has a real (non-integer) exponent. -/
structure DRow where
  id : Nat
  salience : ℝ
  created_at : Int
  accessed_at : Int

/-- `insertMemory` (`src/db.ts`) restricted to these columns: schema
defaults `salience = 1.0`, `created_at = accessed_at = unixepoch()`. -/
def insertMemory (rows : List DRow) (id : Nat) (now : Int) : List DRow :=
  rows ++ [⟨id, 1, now, now⟩]

/-- `touchMemory` (`src/db.ts`) on these columns. -/
noncomputable def touchMemory (rows : List DRow) (id : Nat) (boost : ℝ)
    (now : Int) : List DRow :=
  rows.map fun r =>
    if r.id = id then
      { r with accessed_at := now, salience := min (r.salience + boost) 5 }
    else r

/-- The decayed salience of a row:
`salience * MEMORY_DECAY_FACTOR ^ max(0, (now - accessed_at) / 3600)`,
exactly the `hoursSinceAccess` / `Math.pow` computation in
`decayAllMemories`. -/
noncomputable def newSalience (now : Int) (r : DRow) : ℝ :=
  r.salience * MEMORY_DECAY_FACTOR
    ^ (max 0 (((now - r.accessed_at : Int) : ℝ) / 3600))

/-- The loop body of `decayAllMemories` (`src/db.ts`) for one row:
rows created within the last 24 h are not selected; an old row is deleted
when the new salience falls below `MEMORY_MIN_SALIENCE`, updated when it
decreased by more than 0.001, and left untouched otherwise. Returns
(surviving row, counted as decayed, counted as deleted). -/
noncomputable def decayRow (now : Int) (r : DRow) :
    Option DRow × Bool × Bool :=
  if r.created_at < now - 86400 then
    if newSalience now r < MEMORY_MIN_SALIENCE then (none, false, true)
    else if newSalience now r < r.salience - 0.001 then
      (some { r with salience := newSalience now r }, true, false)
    else (some r, false, false)
  else (some r, false, false)

/-- `decayAllMemories` (`src/db.ts`): one transactional sweep; returns
the surviving table and the `(decayed, deleted)` counters. -/
noncomputable def decayAllMemories (now : Int) (rows : List DRow) :
    List DRow × Nat × Nat :=
  (rows.filterMap fun r => (decayRow now r).1,
   rows.countP fun r => (decayRow now r).2.1,
   rows.countP fun r => (decayRow now r).2.2)

/-- Provenance of the memories table: rows are only created by
`insertMemory` (salience 1.0), only boosted by `touchMemory` with a
nonnegative boost (the callers pass 0.1), decayed by sweeps, and deleted
by pruning. -/
inductive DReach : List DRow → Prop where
  | nil : DReach []
  | insert (rows : List DRow) (id : Nat) (now : Int) (h : DReach rows) :
      DReach (insertMemory rows id now)
  | touch (rows : List DRow) (id : Nat) (boost : ℝ) (now : Int)
      (hb : 0 ≤ boost) (h : DReach rows) :
      DReach (touchMemory rows id boost now)
  | decay (rows : List DRow) (now : Int) (h : DReach rows) :
      DReach (decayAllMemories now rows).1
  | prune (rows : List DRow) (p : DRow → Bool) (h : DReach rows) :
      DReach (rows.filter p)

end Decay

namespace Sched

/-- Modelled from the spec (the cron engine is the external `cron-parser`
dependency, not repository code): "`computeNextRun(expr, after = now) →
unix_seconds` computes the next strict future instant the expression is
due"; cron instants for five-field expressions are minute-aligned. The
expression is abstracted as the decidable set `fire` of minute indices at
which it matches; `nextFireMs` is the earliest matching minute strictly
after `afterMs` (milliseconds), defined whenever the expression fires at
some future minute. -/
def nextFireMs (fire : Nat → Bool) (afterMs : Nat)
    (h : ∃ m, afterMs < 60000 * m ∧ fire m = true) : Nat :=
  60000 * Nat.find h

/-- `computeNextRun` from `src/scheduler.ts`:
`Math.floor(next.getTime() / 1000)` of the library's next fire date. -/
def computeNextRun (fire : Nat → Bool) (afterMs : Nat)
    (h : ∃ m, afterMs < 60000 * m ∧ fire m = true) : Nat :=
  nextFireMs fire afterMs h / 1000

/-- A `scheduled_tasks` row (`src/db.ts` schema), with the cron
expression abstracted to its minute set. -/
structure STask where
  id : String
  chat_id : String
  prompt : String
  schedule : Nat → Bool
  next_run : Nat
  last_run : Option Nat
  last_result : Option String
  paused : Bool
  created_at : Nat

/-- `truncateResult` from `src/scheduler.ts`: bound `last_result` to
10 000 chars. -/
def truncateResult (text : String) : String :=
  if text.length ≤ 10000 then text
  else text.take (10000 - 3) ++ "..."

/-- `updateTaskAfterRun` from `src/db.ts`:
`SET last_run = now, last_result = ?, next_run = ?`. -/
def updateTaskAfterRun (t : STask) (nowSec : Nat) (lastResult : String)
    (nextRun : Nat) : STask :=
  { t with last_run := some nowSec, last_result := some lastResult,
           next_run := nextRun }

/-- One iteration of the `runDueTasks` loop (`src/scheduler.ts`) for a
task whose executor settles with `outcome` at millisecond instant
`completionMs`: on success write the truncated result, on failure the
"ERROR: "-prefixed message; in both cases
`next_run = computeNextRun(task.schedule)` evaluated at the moment after
completion. -/
def runDueTask (t : STask) (outcome : Except String String)
    (completionMs : Nat)
    (h : ∃ m, completionMs < 60000 * m ∧ t.schedule m = true) : STask :=
  match outcome with
  | .ok r =>
      updateTaskAfterRun t (completionMs / 1000) (truncateResult r)
        (computeNextRun t.schedule completionMs h)
  | .error e =>
      updateTaskAfterRun t (completionMs / 1000)
        ("ERROR: " ++ truncateResult e)
        (computeNextRun t.schedule completionMs h)

/-- A whole sweep of `runDueTasks` over the due list: each due task runs
once and is updated; the executor outcome and completion time of each
task are inputs. -/
def runDueTasks (tasks : List (STask × Except String String × Nat))
    (h : ∀ x ∈ tasks, ∃ m, x.2.2 < 60000 * m ∧ x.1.schedule m = true) :
    List STask :=
  @List.pmap _ _
    (fun x => ∃ m, x.2.2 < 60000 * m ∧ x.1.schedule m = true)
    (fun x hx => runDueTask x.1 x.2.1 x.2.2 hx) tasks h

end Sched

namespace Agent

/-- `UsageInfo` from `src/agent.ts` (costs in exact rationals). -/
structure UsageInfo where
  inputTokens : Nat
  outputTokens : Nat
  cacheReadInputTokens : Nat
  totalCostUsd : ℚ
  didCompact : Bool
  preCompactTokens : Option Nat
  lastCallCacheRead : Nat
deriving DecidableEq, Repr

/-- `AgentResult` from `src/agent.ts`. -/
structure AgentResult where
  text : String
  sessionId : Option String
  costUsd : ℚ
  durationMs : Nat
  numTurns : Nat
  usage : Option UsageInfo
  error : Option String
deriving DecidableEq, Repr

/-- The SDK message events observed by `handleMessage`
(`src/agent.ts`). A result event carries `(input_tokens, output_tokens,
cache_read_input_tokens)` when its usage record is present. -/
inductive SDKMsg where
  | systemInit (sessionId : String) : SDKMsg
  | compactBoundary (preTokens : Option Nat) : SDKMsg
  | assistantMsg (error : Option String) (cacheRead : Nat) : SDKMsg
  | authStatus (error : Option String) : SDKMsg
  | resultSuccess (result : String) (totalCostUsd : ℚ) (numTurns : Nat)
      (usage : Option (Nat × Nat × Nat)) : SDKMsg
  | resultError (subtype : String) (errors : List String)
      (totalCostUsd : ℚ) (numTurns : Nat)
      (usage : Option (Nat × Nat × Nat)) : SDKMsg
  | other : SDKMsg

/-- The mutable locals of `runAgent` threaded through the event loop. -/
structure LoopState where
  resolvedSessionId : Option String
  resultText : String
  costUsd : ℚ
  numTurns : Nat
  error : Option String
  didCompact : Bool
  preCompactTokens : Option Nat
  lastCallCacheRead : Nat
  usage : Option UsageInfo

/-- `formatResultError` from `src/agent.ts`. -/
def formatResultError (subtype : String) (errors : List String) : String :=
  if subtype = "error_max_turns" then
    "Task was too complex and reached the turn limit. Try breaking it into smaller steps."
  else if subtype = "error_max_budget_usd" then
    "Budget limit reached for this query."
  else if subtype = "error_during_execution" then
    if errors.length > 0 then
      "Errors during execution:\n" ++ String.intercalate "\n" errors
    else "An error occurred during execution."
  else if subtype = "error_max_structured_output_retries" then
    "Failed to produce structured output after maximum retries."
  else "Agent error: " ++ subtype

/-- `handleAssistantError` from `src/agent.ts`: terminal errors set the
error field, the rest are logged only. -/
def handleAssistantError (error : String) (st : LoopState) : LoopState :=
  if error = "authentication_failed" then
    { st with error := some ("authentication_failed") }
  else if error = "billing_error" then
    { st with error := some ("billing_error") }
  else st

/-- `handleMessage` from `src/agent.ts` as a state transformer. -/
def handleMessage (msg : SDKMsg) (st : LoopState) : LoopState :=
  match msg with
  | .systemInit sid => { st with resolvedSessionId := some sid }
  | .compactBoundary pre =>
      { st with didCompact := true, preCompactTokens := pre }
  | .assistantMsg err cacheRead =>
      let st1 := match err with
        | some e => handleAssistantError e st
        | none => st
      if 0 < cacheRead then { st1 with lastCallCacheRead := cacheRead }
      else st1
  | .authStatus err =>
      match err with
      | some e => { st with error := some ("auth: " ++ e) }
      | none => st
  | .resultSuccess r cost turns usage =>
      let st1 := { st with resultText := r, costUsd := cost,
                           numTurns := turns }
      match usage with
      | some u =>
          { st1 with usage := some ⟨u.1, u.2.1, u.2.2, cost, st.didCompact,
              st.preCompactTokens, st.lastCallCacheRead⟩ }
      | none => st1
  | .resultError subtype errors cost turns usage =>
      let st1 := { st with error := some subtype,
                           resultText := formatResultError subtype errors,
                           costUsd := cost, numTurns := turns }
      match usage with
      | some u =>
          { st1 with usage := some ⟨u.1, u.2.1, u.2.2, cost, st.didCompact,
              st.preCompactTokens, st.lastCallCacheRead⟩ }
      | none => st1
  | .other => st

/-- `runAgent` from `src/agent.ts`: when the caller's abort signal is
already tripped at entry, return the fixed cancelled result before any
work; otherwise drive the `query` event stream through `handleMessage`
and assemble the result. The second component counts invocations of the
underlying `query` (0 on the early return, 1 otherwise);
`elapsedMs` is the wall-clock duration the normal path would measure. -/
def runAgent (aborted : Bool) (sessionId : Option String)
    (events : List SDKMsg) (elapsedMs : Nat) : AgentResult × Nat :=
  if aborted then
    ({ text := "Request was cancelled.", sessionId := sessionId,
       costUsd := 0, durationMs := 0, numTurns := 0, usage := none,
       error := some ("cancelled") }, 0)
  else
    let st0 : LoopState := ⟨sessionId, "", 0, 0, none, false, none, 0, none⟩
    let st := events.foldl (fun s m => handleMessage m s) st0
    ({ text := if st.resultText = "" then "No response from agent."
               else st.resultText,
       sessionId := st.resolvedSessionId, costUsd := st.costUsd,
       durationMs := elapsedMs, numTurns := st.numTurns, usage := st.usage,
       error := st.error }, 1)

end Agent

namespace Split

/-- Constant `MAX_MESSAGE_LENGTH` from `src/config.ts`. -/
def MAX_MESSAGE_LENGTH : Nat := 4096

/-- The whitespace code units `trimStart` removes (ASCII subset; the
formatting pipeline of `bot.ts` only produces these). -/
def isWs (c : Char) : Bool :=
  c = ' ' || c = '\t' || c = '\n' || c = '\r' || c = '\x0b' || c = '\x0c'

/-- JS `String.prototype.lastIndexOf(ch, pos)`: the largest index
`i ≤ pos` holding `ch`, and `-1` when there is none. -/
def lastIndexOf (l : List Char) (ch : Char) : Nat → Int
  | 0 => if l[0]? = some ch then 0 else -1
  | n + 1 =>
      if l[n + 1]? = some ch then ((n + 1 : Nat) : Int)
      else lastIndexOf l ch n

/-- The split-point selection of `splitMessage` (`bot.ts`): last newline
in the window; if earlier than 30% of the window, the last space; if
still earlier than 30%, force-split at the window boundary. The JS
comparison `idx < maxLen * 0.3` on integer operands coincides with the
exact rational comparison `10 * idx < 3 * maxLen`. -/
def chooseSplit (remaining : List Char) (maxLen : Nat) : Nat :=
  let idx1 := lastIndexOf remaining '\n' maxLen
  let idx2 :=
    if 10 * idx1 < 3 * (maxLen : Int) then lastIndexOf remaining ' ' maxLen
    else idx1
  let idx3 :=
    if 10 * idx2 < 3 * (maxLen : Int) then (maxLen : Int) else idx2
  idx3.toNat

/-- The while loop of `splitMessage`, with explicit fuel: `none` means
the fuel ran out before the loop exited. Each pass emits
`remaining.slice(0, splitIdx)` and continues with
`remaining.slice(splitIdx).trimStart()`. -/
def splitGo (maxLen : Nat) : Nat → List Char → Option (List (List Char))
  | 0, _ => none
  | fuel + 1, remaining =>
      if remaining.length = 0 then some []
      else if remaining.length ≤ maxLen then some [remaining]
      else
        let n := chooseSplit remaining maxLen
        (splitGo maxLen fuel ((remaining.drop n).dropWhile isWs)).map
          fun chunks => remaining.take n :: chunks

/-- `splitMessage` from `bot.ts` over UTF-16 code-unit sequences: a
short text is returned whole, otherwise the greedy loop runs (with
enough fuel for every terminating execution). -/
def splitMessage (text : List Char) (maxLen : Nat) :
    Option (List (List Char)) :=
  if text.length ≤ maxLen then some [text]
  else splitGo maxLen (text.length + 1) text

/-- Rejoin chunks with one delimiter string after each chunk. -/
def joinInterleave : List (List Char) → List (List Char) → List Char
  | [], _ => []
  | c :: cs, [] => c ++ joinInterleave cs []
  | c :: cs, s :: ss => c ++ (s ++ joinInterleave cs ss)

end Split

-- ═══════════════ Theorems ═══════════════

namespace CQueue

theorem chainOK_append_pend {l : List TStat} (h : ChainOK l) :
    ChainOK (l ++ [.pend]) := by
  induction h with
  | pends l hp =>
      exact ChainOK.pends _ (by
        intro x hx
        rcases List.mem_append.mp hx with hx | hx
        · exact hp x hx
        · simpa using hx)
  | act st l h hp =>
      exact ChainOK.act st _ h (by
        intro x hx
        rcases List.mem_append.mp hx with hx | hx
        · exact hp x hx
        · simpa using hx)
  | cons_done b l _ ih => exact ChainOK.cons_done b _ ih

theorem chainOK_set_start {l : List TStat} {i : Nat} (h : ChainOK l)
    (hi : l[i]? = some .pend)
    (hprev : i = 0 ∨ ∃ b, l[i-1]? = some (.done b))
    {st : TStat} (hst : st.isActive = true) :
    ChainOK (l.set i st) := by
  induction h generalizing i with
  | pends l hp =>
      have hi0 : i = 0 := by
        rcases hprev with h0 | ⟨b, hb⟩
        · exact h0
        · have := hp _ (List.getElem?_mem hb)
          simp at this
      subst hi0
      cases l with
      | nil => simp at hi
      | cons a t =>
          have ha : a = TStat.pend := hp _ (List.mem_cons_self a t)
          exact ChainOK.act st t hst (fun x hx => hp x (List.mem_cons_of_mem a hx))
  | act st0 l h0 hp =>
      cases i with
      | zero =>
          simp at hi
          subst hi
          simp [TStat.isActive] at h0
      | succ n =>
          exfalso
          rcases hprev with h0' | ⟨b, hb⟩
          · omega
          · cases n with
            | zero =>
                simp at hb
                subst hb
                simp [TStat.isActive] at h0
            | succ m =>
                have : (TStat.done b) ∈ l := by
                  have : l[m]? = some (TStat.done b) := by simpa using hb
                  exact List.getElem?_mem this
                have := hp _ this
                simp at this
  | cons_done b l hc ih =>
      cases i with
      | zero => simp at hi
      | succ n =>
          have hi' : l[n]? = some TStat.pend := by simpa using hi
          have hprev' : n = 0 ∨ ∃ b2, l[n-1]? = some (TStat.done b2) := by
            cases n with
            | zero => exact Or.inl rfl
            | succ m =>
                rcases hprev with h0 | ⟨b2, hb2⟩
                · omega
                · exact Or.inr ⟨b2, by simpa using hb2⟩
          have := ih hi' hprev'
          simpa [List.set] using ChainOK.cons_done b _ this

theorem chainOK_set_active {l : List TStat} {i : Nat} (h : ChainOK l)
    {st0 : TStat} (hi : l[i]? = some st0) (h0 : st0.isActive = true)
    {st : TStat} (hst : st.isActive = true) :
    ChainOK (l.set i st) := by
  induction h generalizing i with
  | pends l hp =>
      exfalso
      have := hp _ (List.getElem?_mem hi)
      subst this
      simp [TStat.isActive] at h0
  | act sta l ha hp =>
      cases i with
      | zero =>
          exact ChainOK.act st l hst hp
      | succ n =>
          exfalso
          have : st0 ∈ l := List.getElem?_mem (by simpa using hi)
          have := hp _ this
          subst this
          simp [TStat.isActive] at h0
  | cons_done b l hc ih =>
      cases i with
      | zero =>
          simp at hi
          subst hi
          simp [TStat.isActive] at h0
      | succ n =>
          have := ih (by simpa using hi)
          simpa [List.set] using ChainOK.cons_done b _ this

theorem chainOK_set_done {l : List TStat} {i : Nat} (h : ChainOK l)
    {st0 : TStat} (hi : l[i]? = some st0) (h0 : st0.isActive = true)
    (b : Bool) : ChainOK (l.set i (.done b)) := by
  induction h generalizing i with
  | pends l hp =>
      exfalso
      have := hp _ (List.getElem?_mem hi)
      subst this
      simp [TStat.isActive] at h0
  | act sta l ha hp =>
      cases i with
      | zero =>
          exact ChainOK.cons_done b l (ChainOK.pends l hp)
      | succ n =>
          exfalso
          have : st0 ∈ l := List.getElem?_mem (by simpa using hi)
          have := hp _ this
          subst this
          simp [TStat.isActive] at h0
  | cons_done b2 l hc ih =>
      cases i with
      | zero =>
          simp at hi
          subst hi
          simp [TStat.isActive] at h0
      | succ n =>
          have := ih (by simpa using hi)
          simpa [List.set] using ChainOK.cons_done b2 _ this

theorem chainOK_pred_done {l : List TStat} (h : ChainOK l) {i : Nat}
    {st : TStat} (hi : l[i + 1]? = some st) (hst : st ≠ .pend) :
    ∃ b, l[i]? = some (.done b) := by
  induction h generalizing i with
  | pends l hp =>
      exact absurd (hp _ (List.getElem?_mem hi)) hst
  | act sta l ha hp =>
      exfalso
      have : st ∈ l := List.getElem?_mem (by simpa using hi)
      exact hst (hp _ this)
  | cons_done b l hc ih =>
      cases i with
      | zero => exact ⟨b, by simp⟩
      | succ n =>
          have hi2 : l[n + 1]? = some st := by simpa using hi
          obtain ⟨b2, hb2⟩ := ih hi2
          exact ⟨b2, by simpa using hb2⟩

theorem stOf_some {qs : List (List TStat)} {c i : Nat} {st : TStat} :
    stOf qs c i = some st ↔ ∃ l, qs[c]? = some l ∧ l[i]? = some st := by
  cases h : qs[c]? <;> simp [stOf, h]

theorem stOf_set_self {qs : List (List TStat)} {c i : Nat}
    {l : List TStat} {st0 : TStat} (hc : qs[c]? = some l)
    (hi : l[i]? = some st0) (st : TStat) :
    stOf (qs.set c (l.set i st)) c i = some st := by
  have hcl : c < qs.length := by
    rw [List.getElem?_eq_some] at hc; exact hc.1
  have hil : i < l.length := by
    rw [List.getElem?_eq_some] at hi; exact hi.1
  simp [stOf, List.getElem?_set, hcl, hil]

theorem stOf_set_ne {qs : List (List TStat)} {c i : Nat}
    {l : List TStat} (hc : qs[c]? = some l) (st : TStat)
    {c2 i2 : Nat} (hne : c2 ≠ c ∨ i2 ≠ i) :
    stOf (qs.set c (l.set i st)) c2 i2 = stOf qs c2 i2 := by
  by_cases hcc : c2 = c
  · subst hcc
    have hne2 : i2 ≠ i := by tauto
    have hcl : c2 < qs.length := by
      rw [List.getElem?_eq_some] at hc; exact hc.1
    simp [stOf, List.getElem?_set, hcl, hc, hne2.symm]
  · simp [stOf, List.getElem?_set, Ne.symm hcc]

theorem stOf_set_inv {qs : List (List TStat)} {c i : Nat}
    {l : List TStat} (hc : qs[c]? = some l) {st st2 : TStat}
    {c2 i2 : Nat}
    (h : stOf (qs.set c (l.set i st)) c2 i2 = some st2) :
    (c2 = c ∧ i2 = i ∧ st2 = st) ∨ stOf qs c2 i2 = some st2 := by
  by_cases hcc : c2 = c
  · by_cases hii : i2 = i
    · subst hcc; subst hii
      have hcl : c2 < qs.length := by
        rw [List.getElem?_eq_some] at hc; exact hc.1
      simp only [stOf, List.getElem?_set, if_pos rfl, hcl, if_true] at h
      simp only [Option.bind_eq_bind, Option.some_bind] at h
      rcases Nat.lt_or_ge i2 l.length with hlt | hge
      · rw [List.getElem?_set, if_pos rfl, if_pos hlt] at h
        exact Or.inl ⟨rfl, rfl, (Option.some_inj.mp h).symm⟩
      · rw [List.getElem?_set, if_pos rfl, if_neg (by omega)] at h
        simp at h
    · exact Or.inr (by rw [← stOf_set_ne hc st (Or.inr hii)]; exact h)
  · exact Or.inr (by rw [← stOf_set_ne hc st (Or.inl hcc)]; exact h)

theorem sum_set_nat (ms : List Nat) (c v : Nat) (h : c < ms.length) :
    (ms.set c v).sum + ms[c] = ms.sum + v := by
  induction ms generalizing c with
  | nil => simp at h
  | cons a t ih =>
      cases c with
      | zero => simp [List.set]; omega
      | succ n =>
          have h2 : n < t.length := by simpa using h
          have h3 := ih n h2
          simp only [List.set, List.sum_cons, List.getElem_cons_succ]
          omega

theorem cnt_set (p : TStat → Bool) {qs : List (List TStat)} {c i : Nat}
    {l : List TStat} {st0 : TStat} (hc : qs[c]? = some l)
    (hi : l[i]? = some st0) (st : TStat) :
    cnt p (qs.set c (l.set i st)) + (if p st0 then 1 else 0)
      = cnt p qs + (if p st then 1 else 0) := by
  have hcl : c < qs.length := by
    rw [List.getElem?_eq_some] at hc; exact hc.1
  have hil : i < l.length := by
    rw [List.getElem?_eq_some] at hi; exact hi.1
  have hl : l[i] = st0 := by
    rw [List.getElem?_eq_some] at hi
    obtain ⟨w, h2⟩ := hi; exact h2
  have hset := List.countP_set p l i st hil
  rw [hl] at hset
  have hmem : st0 ∈ l := hl ▸ List.getElem_mem hil
  have hge : (if p st0 = true then 1 else 0) ≤ List.countP p l := by
    by_cases hp : p st0
    · simpa [hp] using List.countP_pos_iff.mpr ⟨st0, hmem, hp⟩
    · simp [hp]
  have hcount : List.countP p (l.set i st) + (if p st0 = true then 1 else 0)
      = List.countP p l + (if p st = true then 1 else 0) := by
    omega
  have hmap : (qs.set c (l.set i st)).map (List.countP p)
      = (qs.map (List.countP p)).set c (List.countP p (l.set i st)) :=
    List.map_set
  have hclm : c < (qs.map (List.countP p)).length := by simpa using hcl
  have hgl : (qs.map (List.countP p))[c] = List.countP p l := by
    rw [List.getElem_map]
    congr 1
    rw [List.getElem?_eq_some] at hc
    obtain ⟨w, h2⟩ := hc; exact h2
  have hsum := sum_set_nat (qs.map (List.countP p)) c
    (List.countP p (l.set i st)) hclm
  rw [hgl] at hsum
  unfold cnt
  rw [hmap]
  omega

theorem cnt_append (p : TStat → Bool) {qs : List (List TStat)} {c : Nat}
    {l : List TStat} (hc : qs[c]? = some l) (st : TStat) :
    cnt p (qs.set c (l ++ [st])) = cnt p qs + (if p st then 1 else 0) := by
  have hcl : c < qs.length := by
    rw [List.getElem?_eq_some] at hc; exact hc.1
  have hmap : (qs.set c (l ++ [st])).map (List.countP p)
      = (qs.map (List.countP p)).set c (List.countP p (l ++ [st])) :=
    List.map_set
  have hclm : c < (qs.map (List.countP p)).length := by simpa using hcl
  have hgl : (qs.map (List.countP p))[c] = List.countP p l := by
    rw [List.getElem_map]
    congr 1
    rw [List.getElem?_eq_some] at hc
    obtain ⟨w, h2⟩ := hc; exact h2
  have hsum := sum_set_nat (qs.map (List.countP p)) c
    (List.countP p (l ++ [st])) hclm
  rw [hgl] at hsum
  have : List.countP p (l ++ [st]) = List.countP p l + (if p st then 1 else 0) := by
    rw [List.countP_append]
    simp [List.countP_cons]
  unfold cnt
  rw [hmap]
  omega

theorem cnt_pos {qs : List (List TStat)} {c i : Nat} {st : TStat}
    (h : stOf qs c i = some st) (p : TStat → Bool) (hp : p st = true) :
    1 ≤ cnt p qs := by
  obtain ⟨l, hc, hi⟩ := stOf_some.mp h
  have hmeml : l ∈ qs := List.getElem?_mem hc
  have hmem : st ∈ l := List.getElem?_mem hi
  have h1 : 1 ≤ List.countP p l := List.countP_pos_iff.mpr ⟨st, hmem, hp⟩
  have h2 : List.countP p l ∈ qs.map (List.countP p) :=
    List.mem_map.mpr ⟨l, hmeml, rfl⟩
  have := List.single_le_sum (l := qs.map (List.countP p))
    (fun x _ => Nat.zero_le x) _ h2
  unfold cnt
  omega

theorem stOf_append_keep {qs : List (List TStat)} {c : Nat}
    {l : List TStat} (hc : qs[c]? = some l) (x : TStat)
    {c2 i2 : Nat} {st : TStat} (h : stOf qs c2 i2 = some st) :
    stOf (qs.set c (l ++ [x])) c2 i2 = some st := by
  have hcl : c < qs.length := by
    rw [List.getElem?_eq_some] at hc; exact hc.1
  by_cases hcc : c2 = c
  · subst hcc
    obtain ⟨l2, hc2, hi2⟩ := stOf_some.mp h
    rw [hc] at hc2
    obtain rfl : l = l2 := Option.some_inj.mp hc2
    have hil : i2 < l.length := by
      rw [List.getElem?_eq_some] at hi2; exact hi2.1
    have : (l ++ [x])[i2]? = some st := by
      rw [List.getElem?_append_left hil]; exact hi2
    simp [stOf, List.getElem?_set, hcl, this]
  · simp [stOf, List.getElem?_set, Ne.symm hcc]
    simpa [stOf] using h

theorem stOf_append_inv {qs : List (List TStat)} {c : Nat}
    {l : List TStat} (hc : qs[c]? = some l) (x : TStat)
    {c2 i2 : Nat} {st : TStat}
    (h : stOf (qs.set c (l ++ [x])) c2 i2 = some st) :
    stOf qs c2 i2 = some st ∨ st = x := by
  have hcl : c < qs.length := by
    rw [List.getElem?_eq_some] at hc; exact hc.1
  by_cases hcc : c2 = c
  · subst hcc
    simp only [stOf, List.getElem?_set, if_pos rfl, hcl, if_true,
      Option.bind_eq_bind, Option.some_bind] at h
    rcases Nat.lt_or_ge i2 l.length with hlt | hge
    · rw [List.getElem?_append_left hlt] at h
      exact Or.inl (by simp [stOf, hc]; exact h)
    · have hlen : i2 < l.length + 1 := by
        by_contra hbig
        rw [List.getElem?_eq_none (by simpa using hbig)] at h
        simp at h
      have : i2 = l.length := by omega
      subst this
      rw [List.getElem?_append_right (by omega)] at h
      simp at h
      exact Or.inr h.symm
  · left
    simpa [stOf, List.getElem?_set, Ne.symm hcc] using h

theorem inv_init (n : Nat) : Inv (init n) := by
  refine ⟨?_, ?_, ?_, ?_, ?_, ?_, ?_⟩
  · simp [init, MAX_CONCURRENT]
  · simp [init, cnt, List.map_replicate]
  · intro l hl
    rw [List.eq_of_mem_replicate hl]
    exact ChainOK.pends [] (by simp)
  · intro w hw; simp [init] at hw
  · simp [init]
  · intro hne; simp [init] at hne
  · intro c i hww
    obtain ⟨l, hc, hi⟩ := stOf_some.mp hww
    have := List.eq_of_mem_replicate (List.getElem?_mem hc)
    subst this
    simp at hi

theorem inv_step {s s2 : QSt} (h : Inv s) (hs : Step s s2) : Inv s2 := by
  cases hs with
  | enqueue c l hc =>
      refine ⟨h.cap, ?_, ?_, ?_, h.wnd, h.wcap, ?_⟩
      · have g1 := cnt_append TStat.isGrant hc .pend
        have g2 := cnt_append TStat.isRun hc .pend
        simp [TStat.isGrant, TStat.isRun] at g1 g2
        have := h.acc
        simp only []
        omega
      · intro l2 hl2
        rcases List.mem_or_eq_of_mem_set hl2 with h2 | rfl
        · exact h.chains _ h2
        · exact chainOK_append_pend (h.chains l (List.getElem?_mem hc))
      · intro w hw
        exact stOf_append_keep hc _ (h.wst w hw)
      · intro c2 i2 hww
        rcases stOf_append_inv hc _ hww with h2 | h2
        · exact h.wall c2 i2 h2
        · simp at h2
  | startFast c i l hc hi hprev hcap =>
      have hpos : stOf s.qs c i = some .pend := stOf_some.mpr ⟨l, hc, hi⟩
      refine ⟨?_, ?_, ?_, ?_, h.wnd, ?_, ?_⟩
      · simp only [MAX_CONCURRENT] at hcap ⊢
        omega
      · have g1 := cnt_set TStat.isGrant hc hi .grant
        have g2 := cnt_set TStat.isRun hc hi .grant
        simp only [TStat.isGrant, TStat.isRun] at g1 g2
        simp at g1 g2
        have := h.acc
        simp only []
        omega
      · intro l2 hl2
        rcases List.mem_or_eq_of_mem_set hl2 with h2 | rfl
        · exact h.chains _ h2
        · exact chainOK_set_start (h.chains l (List.getElem?_mem hc)) hi hprev rfl
      · intro w hw
        have hold := h.wst w hw
        have hne : w.1 ≠ c ∨ w.2 ≠ i := by
          by_contra hcon
          push_neg at hcon
          obtain ⟨e1, e2⟩ := hcon
          rw [e1, e2, hpos] at hold
          simp at hold
        rw [stOf_set_ne hc _ hne]
        exact hold
      · intro hne
        have := h.wcap hne
        simp only [MAX_CONCURRENT] at this hcap
        omega
      · intro c2 i2 hww
        rcases stOf_set_inv hc hww with ⟨e1, e2, e3⟩ | h2
        · simp at e3
        · exact h.wall c2 i2 h2
  | startWait c i l hc hi hprev hcap =>
      have hpos : stOf s.qs c i = some .pend := stOf_some.mpr ⟨l, hc, hi⟩
      have hil : i < l.length := by
        rw [List.getElem?_eq_some] at hi; exact hi.1
      have hnotin : (c, i) ∉ s.waiters := by
        intro hmem
        have := h.wst _ hmem
        simp only at this
        rw [hpos] at this
        simp at this
      refine ⟨h.cap, ?_, ?_, ?_, ?_, ?_, ?_⟩
      · have g1 := cnt_set TStat.isGrant hc hi .wait
        have g2 := cnt_set TStat.isRun hc hi .wait
        simp only [TStat.isGrant, TStat.isRun] at g1 g2
        simp at g1 g2
        have := h.acc
        simp only []
        omega
      · intro l2 hl2
        rcases List.mem_or_eq_of_mem_set hl2 with h2 | rfl
        · exact h.chains _ h2
        · exact chainOK_set_start (h.chains l (List.getElem?_mem hc)) hi hprev rfl
      · intro w hw
        rcases List.mem_append.mp hw with hw2 | hw2
        · have hold := h.wst w hw2
          have hne : w.1 ≠ c ∨ w.2 ≠ i := by
            by_contra hcon
            push_neg at hcon
            obtain ⟨e1, e2⟩ := hcon
            rw [e1, e2, hpos] at hold
            simp at hold
          rw [stOf_set_ne hc _ hne]
          exact hold
        · simp at hw2
          subst hw2
          exact stOf_set_self hc hi _
      · rw [List.nodup_append]
        exact ⟨h.wnd, List.nodup_singleton _, by
          intro a ha hb
          simp at hb
          subst hb
          exact hnotin ha⟩
      · intro _
        have hc2 := h.cap
        simp only [MAX_CONCURRENT] at hcap hc2 ⊢
        omega
      · intro c2 i2 hww
        rcases stOf_set_inv hc hww with ⟨e1, e2, _⟩ | h2
        · subst e1; subst e2
          simp
        · exact List.mem_append_left _ (h.wall c2 i2 h2)
  | resume c i l hc hi =>
      have hpos : stOf s.qs c i = some .grant := stOf_some.mpr ⟨l, hc, hi⟩
      refine ⟨h.cap, ?_, ?_, ?_, h.wnd, h.wcap, ?_⟩
      · have g1 := cnt_set TStat.isGrant hc hi .running
        have g2 := cnt_set TStat.isRun hc hi .running
        simp only [TStat.isGrant, TStat.isRun] at g1 g2
        simp at g1 g2
        have := h.acc
        simp only []
        omega
      · intro l2 hl2
        rcases List.mem_or_eq_of_mem_set hl2 with h2 | rfl
        · exact h.chains _ h2
        · exact chainOK_set_active (h.chains l (List.getElem?_mem hc)) hi rfl rfl
      · intro w hw
        have hold := h.wst w hw
        have hne : w.1 ≠ c ∨ w.2 ≠ i := by
          by_contra hcon
          push_neg at hcon
          obtain ⟨e1, e2⟩ := hcon
          rw [e1, e2, hpos] at hold
          simp at hold
        rw [stOf_set_ne hc _ hne]
        exact hold
      · intro c2 i2 hww
        rcases stOf_set_inv hc hww with ⟨e1, e2, e3⟩ | h2
        · simp at e3
        · exact h.wall c2 i2 h2
  | finishLast c i l b hc hi hw =>
      have hpos : stOf s.qs c i = some .running := stOf_some.mpr ⟨l, hc, hi⟩
      refine ⟨?_, ?_, ?_, ?_, List.nodup_nil, ?_, ?_⟩
      · have := h.cap
        simp only [MAX_CONCURRENT] at this ⊢
        omega
      · have g1 := cnt_set TStat.isGrant hc hi (.done b)
        have g2 := cnt_set TStat.isRun hc hi (.done b)
        simp only [TStat.isGrant, TStat.isRun] at g1 g2
        simp at g1 g2
        have hrun := cnt_pos hpos TStat.isRun rfl
        have := h.acc
        simp only []
        omega
      · intro l2 hl2
        rcases List.mem_or_eq_of_mem_set hl2 with h2 | rfl
        · exact h.chains _ h2
        · exact chainOK_set_done (h.chains l (List.getElem?_mem hc)) hi rfl b
      · intro w hw2
        simp at hw2
      · intro hne
        simp at hne
      · intro c2 i2 hww
        exfalso
        rcases stOf_set_inv hc hww with ⟨_, _, e3⟩ | h2
        · simp at e3
        · have := h.wall c2 i2 h2
          rw [hw] at this
          simp at this
  | finishHand c i l b w rest hc hi hw =>
      have hpos : stOf s.qs c i = some .running := stOf_some.mpr ⟨l, hc, hi⟩
      have hwmem : w ∈ s.waiters := by rw [hw]; exact List.mem_cons_self _ _
      have hwst0 : stOf s.qs w.1 w.2 = some .wait := h.wst w hwmem
      have hne : w.1 ≠ c ∨ w.2 ≠ i := by
        by_contra hcon
        push_neg at hcon
        obtain ⟨e1, e2⟩ := hcon
        rw [e1, e2, hpos] at hwst0
        simp at hwst0
      have hQ1 : stOf (s.qs.set c (l.set i (.done b))) w.1 w.2
          = some .wait := by
        rw [stOf_set_ne hc _ hne]; exact hwst0
      obtain ⟨l2, hc2, hi2⟩ := stOf_some.mp hQ1
      have hsetSt : setSt (s.qs.set c (l.set i (.done b))) w.1 w.2 .grant
          = (s.qs.set c (l.set i (.done b))).set w.1 (l2.set w.2 .grant) := by
        unfold setSt
        rw [hc2]
      have hch1 : ∀ lx ∈ s.qs.set c (l.set i (.done b)), ChainOK lx := by
        intro lx hlx
        rcases List.mem_or_eq_of_mem_set hlx with h2 | rfl
        · exact h.chains _ h2
        · exact chainOK_set_done (h.chains l (List.getElem?_mem hc)) hi rfl b
      refine ⟨h.cap, ?_, ?_, ?_, ?_, ?_, ?_⟩
      · have g1a := cnt_set TStat.isGrant hc hi (.done b)
        have g1b := cnt_set TStat.isRun hc hi (.done b)
        have g2a := cnt_set TStat.isGrant hc2 hi2 .grant
        have g2b := cnt_set TStat.isRun hc2 hi2 .grant
        simp only [TStat.isGrant, TStat.isRun] at g1a g1b g2a g2b
        simp at g1a g1b g2a g2b
        have hrun := cnt_pos hpos TStat.isRun rfl
        have := h.acc
        simp only [hsetSt]
        omega
      · simp only [hsetSt]
        intro l3 hl3
        rcases List.mem_or_eq_of_mem_set hl3 with h3 | rfl
        · exact hch1 _ h3
        · exact chainOK_set_active (hch1 l2 (List.getElem?_mem hc2)) hi2 rfl rfl
      · intro w2 hw2
        have hw2mem : w2 ∈ s.waiters := by
          rw [hw]; exact List.mem_cons_of_mem _ hw2
        have hold := h.wst w2 hw2mem
        have hne2 : w2.1 ≠ c ∨ w2.2 ≠ i := by
          by_contra hcon
          push_neg at hcon
          obtain ⟨e1, e2⟩ := hcon
          rw [e1, e2, hpos] at hold
          simp at hold
        have hwne : w2 ≠ w := by
          intro he
          have hnd := h.wnd
          rw [hw] at hnd
          exact (List.nodup_cons.mp hnd).1 (he ▸ hw2)
        have hne3 : w2.1 ≠ w.1 ∨ w2.2 ≠ w.2 := by
          by_contra hcon
          push_neg at hcon
          exact hwne (Prod.ext hcon.1 hcon.2)
        simp only [hsetSt]
        rw [stOf_set_ne hc2 _ hne3, stOf_set_ne hc _ hne2]
        exact hold
      · have hnd := h.wnd
        rw [hw] at hnd
        exact (List.nodup_cons.mp hnd).2
      · intro hrne
        exact h.wcap (by rw [hw]; simp)
      · intro c2 i2 hww
        simp only [hsetSt] at hww
        have hnw : ¬(c2 = w.1 ∧ i2 = w.2) := by
          rintro ⟨rfl, rfl⟩
          have hself := stOf_set_self hc2 hi2 TStat.grant
          rw [hww] at hself
          simp at hself
        rcases stOf_set_inv hc2 hww with ⟨e1, e2, e3⟩ | h2
        · exact absurd ⟨e1, e2⟩ hnw
        · rcases stOf_set_inv hc h2 with ⟨e1, e2, e3⟩ | h3
          · simp at e3
          · have hmem2 := h.wall c2 i2 h3
            rw [hw] at hmem2
            rcases List.mem_cons.mp hmem2 with he | hm
            · exact absurd ⟨congrArg Prod.fst he, congrArg Prod.snd he⟩ hnw
            · exact hm

theorem inv_reach {n : Nat} {s : QSt} (h : Reach n s) : Inv s := by
  induction h with
  | refl => exact inv_init n
  | tail h1 h2 ih => exact inv_step ih h2

/-- C1: across all chats and all interleavings of `enqueue`, at most
`MAX_CONCURRENT = 2` task bodies execute concurrently: in every reachable
state of the queue system the number of running bodies is at most 2 (and
`activeConcurrent` itself never exceeds 2). -/
theorem concurrency_cap_le_two {n : Nat} {s : QSt} (h : Reach n s) :
    cnt TStat.isRun s.qs ≤ MAX_CONCURRENT ∧ s.active ≤ MAX_CONCURRENT := by
  have hi := inv_reach h
  have h1 := hi.acc
  have h2 := hi.cap
  exact ⟨by omega, h2⟩

theorem concurrency_cap_le_two_witness :
    Reach 2 ⟨[[TStat.running], [TStat.running]], [], 2⟩ ∧
      cnt TStat.isRun [[TStat.running], [TStat.running]] ≤ MAX_CONCURRENT := by
  have e1 : Step (init 2) ⟨[[TStat.pend], []], [], 0⟩ :=
    Step.enqueue (init 2) 0 [] rfl
  have e2 : Step ⟨[[TStat.pend], []], [], 0⟩
      ⟨[[TStat.pend], [TStat.pend]], [], 0⟩ :=
    Step.enqueue _ 1 [] rfl
  have e3 : Step ⟨[[TStat.pend], [TStat.pend]], [], 0⟩
      ⟨[[TStat.grant], [TStat.pend]], [], 1⟩ :=
    Step.startFast _ 0 0 [TStat.pend] rfl rfl (Or.inl rfl) (by decide)
  have e4 : Step ⟨[[TStat.grant], [TStat.pend]], [], 1⟩
      ⟨[[TStat.grant], [TStat.grant]], [], 2⟩ :=
    Step.startFast _ 1 0 [TStat.pend] rfl rfl (Or.inl rfl) (by decide)
  have e5 : Step ⟨[[TStat.grant], [TStat.grant]], [], 2⟩
      ⟨[[TStat.running], [TStat.grant]], [], 2⟩ :=
    Step.resume _ 0 0 [TStat.grant] rfl rfl
  have e6 : Step ⟨[[TStat.running], [TStat.grant]], [], 2⟩
      ⟨[[TStat.running], [TStat.running]], [], 2⟩ :=
    Step.resume _ 1 0 [TStat.grant] rfl rfl
  have hr : Reach 2 ⟨[[TStat.running], [TStat.running]], [], 2⟩ :=
    (((((Relation.ReflTransGen.refl.tail e1).tail e2).tail e3).tail
      e4).tail e5).tail e6
  exact ⟨hr, (concurrency_cap_le_two hr).1⟩

/-- C2: per chat, strict FIFO — in every reachable state a task that has
moved past `pend` (its `prev.then` callback fired, so in particular its
body begun) has a settled predecessor; the semaphore count always equals
the number of granted-plus-running tasks, so a task that throws
(`done false`) released its slot in `finally` like any other; and after a
task settles by throwing, its chat successor can take a step out of
`pend` (it is never stuck). -/
theorem fifo_per_chat {n : Nat} (s : QSt) (h : Reach n s) :
    (∀ c i st, stOf s.qs c (i + 1) = some st → st ≠ .pend →
        ∃ b, stOf s.qs c i = some (.done b))
    ∧ s.active = cnt TStat.isGrant s.qs + cnt TStat.isRun s.qs
    ∧ (∀ c i b, stOf s.qs c i = some (.done b) →
        stOf s.qs c (i + 1) = some .pend →
        ∃ s2, Step s s2 ∧ stOf s2.qs c (i + 1) ≠ some .pend) := by
  have hi := inv_reach h
  refine ⟨?_, hi.acc, ?_⟩
  · intro c i st hst hne
    obtain ⟨l, hc, hl⟩ := stOf_some.mp hst
    obtain ⟨b, hb⟩ := chainOK_pred_done (hi.chains l (List.getElem?_mem hc)) hl hne
    exact ⟨b, stOf_some.mpr ⟨l, hc, hb⟩⟩
  · intro c i b hdone hpend
    obtain ⟨l, hc, hl1⟩ := stOf_some.mp hpend
    obtain ⟨l0, hc0, hl0⟩ := stOf_some.mp hdone
    rw [hc] at hc0
    obtain rfl : l = l0 := Option.some_inj.mp hc0
    have hprev : i + 1 = 0 ∨ ∃ b2, l[i + 1 - 1]? = some (TStat.done b2) :=
      Or.inr ⟨b, by simpa using hl0⟩
    by_cases hcap : s.active < MAX_CONCURRENT
    · refine ⟨_, Step.startFast s c (i + 1) l hc hl1 hprev hcap, ?_⟩
      rw [stOf_set_self hc hl1]
      simp
    · refine ⟨_, Step.startWait s c (i + 1) l hc hl1 hprev hcap, ?_⟩
      rw [stOf_set_self hc hl1]
      simp

theorem fifo_per_chat_witness :
    ∃ s2, Step ⟨[[TStat.done false, TStat.pend]], [], 0⟩ s2 ∧
      stOf s2.qs 0 1 ≠ some TStat.pend := by
  have e1 : Step (init 1) ⟨[[TStat.pend]], [], 0⟩ :=
    Step.enqueue (init 1) 0 [] rfl
  have e2 : Step ⟨[[TStat.pend]], [], 0⟩
      ⟨[[TStat.pend, TStat.pend]], [], 0⟩ :=
    Step.enqueue _ 0 [TStat.pend] rfl
  have e3 : Step ⟨[[TStat.pend, TStat.pend]], [], 0⟩
      ⟨[[TStat.grant, TStat.pend]], [], 1⟩ :=
    Step.startFast _ 0 0 [TStat.pend, TStat.pend] rfl rfl (Or.inl rfl)
      (by decide)
  have e4 : Step ⟨[[TStat.grant, TStat.pend]], [], 1⟩
      ⟨[[TStat.running, TStat.pend]], [], 1⟩ :=
    Step.resume _ 0 0 [TStat.grant, TStat.pend] rfl rfl
  have e5 : Step ⟨[[TStat.running, TStat.pend]], [], 1⟩
      ⟨[[TStat.done false, TStat.pend]], [], 0⟩ :=
    Step.finishLast _ 0 0 [TStat.running, TStat.pend] false rfl rfl rfl
  have hr : Reach 1 ⟨[[TStat.done false, TStat.pend]], [], 0⟩ :=
    ((((Relation.ReflTransGen.refl.tail e1).tail e2).tail e3).tail
      e4).tail e5
  exact (fifo_per_chat _ hr).2.2 0 0 false rfl rfl

end CQueue

namespace RateLimit

theorem rl_adm_sublist (es : List (Int × Bool)) (w adm : List Int) :
    ∃ d, (es.foldl admitStep (w, adm)).2 = adm ++ d ∧
      d.Sublist (es.map Prod.fst) := by
  induction es generalizing w adm with
  | nil => exact ⟨[], by simp, List.nil_sublist _⟩
  | cons e rest ih =>
      simp only [List.foldl_cons]
      by_cases hlim : (isRateLimited e.1 w).2
      · obtain ⟨d, hd, hsub⟩ := ih (isRateLimited e.1 w).1 adm
        refine ⟨d, ?_, ?_⟩
        · simp only [admitStep, hlim, if_true]
          exact hd
        · exact hsub.trans (List.sublist_cons_self _ _)
      · by_cases hflag : e.2
        · obtain ⟨d, hd, hsub⟩ :=
            ih (recordMessage e.1 (isRateLimited e.1 w).1) (adm ++ [e.1])
          refine ⟨e.1 :: d, ?_, ?_⟩
          · simp only [admitStep, hlim, if_false, hflag, if_true,
              Bool.false_eq_true]
            rw [hd]
            simp
          · simpa using List.Sublist.cons₂ e.1 hsub
        · obtain ⟨d, hd, hsub⟩ := ih (isRateLimited e.1 w).1 adm
          refine ⟨d, ?_, ?_⟩
          · simp only [admitStep, hlim, hflag]
            simp only [Bool.false_eq_true, if_false]
            exact hd
          · exact hsub.trans (List.sublist_cons_self _ _)

theorem rl_fold_bound (es : List (Int × Bool)) (w adm : List Int)
    (t0 : Int)
    (hts : ∀ e ∈ es, t0 ≤ e.1)
    (hsort : (es.map Prod.fst).Pairwise (· ≤ ·))
    (hw : w = adm.filter fun x => decide (t0 - x < 60000))
    (hadm : ∀ x ∈ adm, x ≤ t0)
    (hcnt : ∀ a : Int,
      adm.countP (inWin a) ≤ MAX_MESSAGES_PER_MINUTE) :
    ∀ a : Int, ((es.foldl admitStep (w, adm)).2.countP (inWin a))
      ≤ MAX_MESSAGES_PER_MINUTE := by
  induction es generalizing w adm t0 with
  | nil => simpa using hcnt
  | cons e rest ih =>
      have ht0e : t0 ≤ e.1 := hts e (List.mem_cons_self e rest)
      have hsortc : List.Pairwise (· ≤ ·) (e.1 :: rest.map Prod.fst) := by
        simpa only [List.map_cons] using hsort
      have pc := List.pairwise_cons.mp hsortc
      have hrest : ∀ x ∈ rest, e.1 ≤ x.1 := fun x hx =>
        pc.1 x.1 (List.mem_map.mpr ⟨x, hx, rfl⟩)
      have hsort2 : (rest.map Prod.fst).Pairwise (· ≤ ·) := pc.2
      have hrecent : w.filter (fun t => decide (e.1 - t < 60000))
          = adm.filter fun x => decide (e.1 - x < 60000) := by
        rw [hw, List.filter_filter]
        apply List.filter_congr
        intro x hx
        have h1 := hadm x hx
        by_cases h2 : e.1 - x < 60000
        · have h3 : t0 - x < 60000 := by omega
          simp [h2, h3]
        · simp [h2]
      simp only [List.foldl_cons]
      by_cases hlim : MAX_MESSAGES_PER_MINUTE ≤
          (adm.filter fun x => decide (e.1 - x < 60000)).length
      · have hstep : admitStep (w, adm) e
            = (adm.filter fun x => decide (e.1 - x < 60000), adm) := by
          simp [admitStep, isRateLimited, hrecent, hlim]
        rw [hstep]
        exact ih _ _ e.1 (fun x hx => hrest x hx) hsort2 rfl
          (fun x hx => le_trans (hadm x hx) ht0e) hcnt
      · by_cases hflag : e.2
        · have hstep : admitStep (w, adm) e
              = ((adm.filter fun x => decide (e.1 - x < 60000)) ++ [e.1],
                 adm ++ [e.1]) := by
            simp [admitStep, isRateLimited, hrecent, recordMessage,
              hlim, hflag]
          rw [hstep]
          have hw2 : (adm.filter fun x => decide (e.1 - x < 60000)) ++ [e.1]
              = (adm ++ [e.1]).filter fun x => decide (e.1 - x < 60000) := by
            rw [List.filter_append]
            simp
          rw [hw2]
          apply ih _ _ e.1 (fun x hx => hrest x hx) hsort2 rfl
          · intro x hx
            rcases List.mem_append.mp hx with hx | hx
            · exact le_trans (hadm x hx) ht0e
            · simp at hx
              omega
          · intro a
            rw [List.countP_append]
            by_cases hin : inWin a e.1 = true
            · have hone : List.countP (inWin a) [e.1] = 1 := by
                simp [hin]
              rw [hone]
              have hwin : ∀ x ∈ adm, inWin a x = true →
                  decide (e.1 - x < 60000) = true := by
                intro x hx hx2
                simp only [inWin, Bool.and_eq_true, decide_eq_true_eq]
                  at hx2 hin
                simp only [decide_eq_true_eq]
                omega
              have hsub := List.countP_mono_left hwin
              have hlen : adm.countP (fun x => decide (e.1 - x < 60000))
                  = ((adm.filter fun x => decide (e.1 - x < 60000))).length :=
                List.countP_eq_length_filter _ _
              have h9 := hcnt a
              simp only [MAX_MESSAGES_PER_MINUTE] at hlim h9 ⊢
              omega
            · have hzero : List.countP (inWin a) [e.1] = 0 := by
                simp only [Bool.not_eq_true] at hin
                simp [hin]
              rw [hzero]
              simpa using hcnt a
        · have hstep : admitStep (w, adm) e
              = (adm.filter fun x => decide (e.1 - x < 60000), adm) := by
            simp [admitStep, isRateLimited, hrecent, hlim, hflag]
          rw [hstep]
          exact ih _ _ e.1 (fun x hx => hrest x hx) hsort2 rfl
            (fun x hx => le_trans (hadm x hx) ht0e) hcnt

/-- C6: per chat, the admission path (rate-limit probe, then on success
the timestamp record inside `enqueue`) admits strictly fewer than 11
messages inside any 60 000 ms interval, for every sequence of admission
attempts and check-only probes with nondecreasing clock readings; and
every admitted time is one of the attempt times (the probe itself never
fabricates or appends an admission). -/
theorem rate_limit_window_bound (es : List (Int × Bool))
    (hsort : (es.map Prod.fst).Pairwise (· ≤ ·)) :
    (runAdmissions es).2.Sublist (es.map Prod.fst) ∧
    ∀ a : Int, (runAdmissions es).2.countP (inWin a)
      < MAX_MESSAGES_PER_MINUTE + 1 := by
  constructor
  · obtain ⟨d, hd, hsub⟩ := rl_adm_sublist es [] []
    rw [runAdmissions, hd]
    simpa using hsub
  · intro a
    cases es with
    | nil => simp [runAdmissions, MAX_MESSAGES_PER_MINUTE]
    | cons e rest =>
        have hsortc : List.Pairwise (· ≤ ·) (e.1 :: rest.map Prod.fst) := by
          simpa only [List.map_cons] using hsort
        have hts : ∀ x ∈ e :: rest, e.1 ≤ x.1 := by
          intro x hx
          rcases List.mem_cons.mp hx with rfl | hx
          · exact le_refl _
          · exact (List.pairwise_cons.mp hsortc).1 x.1
              (List.mem_map.mpr ⟨x, hx, rfl⟩)
        have h10 := rl_fold_bound (e :: rest) [] [] e.1 hts hsort
          (by simp) (by simp) (by simp [MAX_MESSAGES_PER_MINUTE]) a
        rw [runAdmissions]
        omega

theorem rate_limit_window_bound_witness :
    (runAdmissions (List.replicate 12 ((0 : Int), true))).2.Sublist
      ((List.replicate 12 ((0 : Int), true)).map Prod.fst) ∧
    ∀ a : Int, (runAdmissions (List.replicate 12 ((0 : Int), true))).2.countP
      (inWin a) < MAX_MESSAGES_PER_MINUTE + 1 :=
  rate_limit_window_bound _ (by
    apply List.Pairwise.map
    · intro a b h
      exact h
    · exact List.pairwise_replicate.mpr (by simp))

end RateLimit

namespace MemStore

theorem keyLe_total (a b : Mem) : (keyLe a b || keyLe b a) = true := by
  simp only [keyLe, Bool.or_eq_true, Bool.and_eq_true, decide_eq_true_eq]
  rcases lt_trichotomy a.salience b.salience with h | h | h
  · exact Or.inl (Or.inl h)
  · rcases le_total a.accessed_at b.accessed_at with h2 | h2
    · exact Or.inl (Or.inr ⟨h, h2⟩)
    · exact Or.inr (Or.inr ⟨h.symm, h2⟩)
  · exact Or.inr (Or.inl h)

theorem keyLe_trans (a b c : Mem) (h1 : keyLe a b = true)
    (h2 : keyLe b c = true) : keyLe a c = true := by
  simp only [keyLe, Bool.or_eq_true, Bool.and_eq_true, decide_eq_true_eq]
    at h1 h2 ⊢
  rcases h1 with h1 | ⟨h1, h1a⟩ <;> rcases h2 with h2 | ⟨h2, h2a⟩
  · exact Or.inl (lt_trans h1 h2)
  · exact Or.inl (h2 ▸ h1)
  · exact Or.inl (h1 ▸ h2)
  · exact Or.inr ⟨h1.trans h2, le_trans h1a h2a⟩

theorem stats_total (rows : List Mem) (c : String) :
    (getMemoryStats rows c).1 + (getMemoryStats rows c).2
      = memCount rows c := by
  induction rows with
  | nil => simp [getMemoryStats, memCount]
  | cons r t ih =>
      simp only [getMemoryStats, memCount, List.countP_cons] at ih ⊢
      by_cases hc : r.chat_id = c
      · cases hs : r.sector <;> simp [hc, hs] <;> omega
      · simp [hc]
        omega

theorem length_chat_split (l : List Mem) (c : String) :
    l.length = memCount l c + l.countP fun r => !(decide (r.chat_id = c)) := by
  induction l with
  | nil => simp [memCount]
  | cons r t ih =>
      simp only [memCount, List.countP_cons, List.length_cons] at ih ⊢
      by_cases hc : r.chat_id = c <;> simp [hc] <;> omega

theorem pruneExcess_spec (rows : List Mem) (c : String)
    (hnodup : (rows.map Mem.id).Nodup) :
    (pruneExcessMemories rows c).Sublist rows
    ∧ memCount (pruneExcessMemories rows c) c
        = min (memCount rows c) MAX_MEMORIES_PER_CHAT
    ∧ (∀ d ∈ rows, d ∉ pruneExcessMemories rows c → d.chat_id = c ∧
        ∀ k ∈ pruneExcessMemories rows c, k.chat_id = c → keyLe d k = true)
    ∧ (MAX_MEMORIES_PER_CHAT < memCount rows c →
        (pruneExcessMemories rows c).length
          + (memCount rows c - MAX_MEMORIES_PER_CHAT) = rows.length) := by
  have htot := stats_total rows c
  by_cases hle : (getMemoryStats rows c).1 + (getMemoryStats rows c).2
      ≤ MAX_MEMORIES_PER_CHAT
  · have heq : pruneExcessMemories rows c = rows := by
      simp [pruneExcessMemories, hle]
    rw [heq]
    refine ⟨List.Sublist.refl _, ?_, ?_, ?_⟩
    · rw [min_eq_left (by omega)]
    · intro d hd hnd
      exact absurd hd hnd
    · intro hgt
      omega
  · have hexpand : pruneExcessMemories rows c
        = rows.filter fun r => decide (r.id ∉
            ((((rows.filter fun r2 => decide (r2.chat_id = c)).mergeSort
                keyLe).take
              ((getMemoryStats rows c).1 + (getMemoryStats rows c).2
                - MAX_MEMORIES_PER_CHAT)).map Mem.id)) := by
      simp [pruneExcessMemories, hle]
    set mine := rows.filter fun r2 => decide (r2.chat_id = c) with hmine
    set excess := (getMemoryStats rows c).1 + (getMemoryStats rows c).2
      - MAX_MEMORIES_PER_CHAT with hexdef
    set sorted := mine.mergeSort keyLe with hsorteddef
    set doomed := (sorted.take excess).map Mem.id with hdoomed
    rw [hexpand]
    have hminelen : mine.length = memCount rows c := by
      rw [memCount, List.countP_eq_length_filter]
    have hperm : sorted.Perm mine := List.mergeSort_perm mine keyLe
    have hsortedlen : sorted.length = mine.length := hperm.length_eq
    have hids_mine : (mine.map Mem.id).Nodup :=
      hnodup.sublist (List.Sublist.map Mem.id (List.filter_sublist rows))
    have hids_sorted : (sorted.map Mem.id).Nodup :=
      ((hperm.map Mem.id).nodup_iff).mpr hids_mine
    have hnodup_sorted : sorted.Nodup := List.Nodup.of_map Mem.id hids_sorted
    have hsplit : sorted.take excess ++ sorted.drop excess = sorted :=
      List.take_append_drop excess sorted
    have hpair : List.Pairwise (fun a b => keyLe a b = true) sorted :=
      List.sorted_mergeSort keyLe_trans (fun a b => keyLe_total a b) mine
    have hmem_sorted_rows : ∀ x ∈ sorted, x ∈ rows := by
      intro x hx
      exact (List.mem_filter.mp (hperm.subset hx)).1
    have hmem_drop_not : ∀ x ∈ sorted.drop excess, x.id ∉ doomed := by
      intro x hx hmem
      obtain ⟨y, hy, hyid⟩ := List.mem_map.mp hmem
      have hxs : x ∈ sorted := by
        rw [← hsplit]; exact List.mem_append_right _ hx
      have hys : y ∈ sorted := by
        rw [← hsplit]; exact List.mem_append_left _ hy
      have hyx : y = x := List.inj_on_of_nodup_map hids_sorted hys hxs hyid
      subst hyx
      have hnd : (sorted.take excess ++ sorted.drop excess).Nodup := by
        rw [hsplit]; exact hnodup_sorted
      exact (List.nodup_append.mp hnd).2.2 hy hx
    have hnonchat : ∀ r ∈ rows, ¬ r.chat_id = c → r.id ∉ doomed := by
      intro r hr hrc hmem
      obtain ⟨y, hy, hyid⟩ := List.mem_map.mp hmem
      have hys : y ∈ sorted := by
        rw [← hsplit]; exact List.mem_append_left _ hy
      have hymine := hperm.subset hys
      have hchat := (List.mem_filter.mp hymine).2
      have hyrows := (List.mem_filter.mp hymine).1
      have hry : r = y := List.inj_on_of_nodup_map hnodup hr hyrows hyid.symm
      subst hry
      simp at hchat
      exact hrc hchat
    have hdoomed_mem_take : ∀ d ∈ rows, d.id ∈ doomed →
        d ∈ sorted.take excess := by
      intro d hd hmem
      obtain ⟨y, hy, hyid⟩ := List.mem_map.mp hmem
      have hys : y ∈ sorted := by
        rw [← hsplit]; exact List.mem_append_left _ hy
      have hdy : d = y :=
        List.inj_on_of_nodup_map hnodup hd (hmem_sorted_rows y hys) hyid.symm
      subst hdy
      exact hy
    have hcnt_kept : memCount
        (rows.filter fun r => decide (r.id ∉ doomed)) c
        = memCount rows c - excess := by
      rw [memCount, List.countP_filter]
      have hcongr : rows.countP
          (fun r => decide (r.chat_id = c) && decide (r.id ∉ doomed))
          = mine.countP fun r => decide (r.id ∉ doomed) := by
        rw [hmine, List.countP_filter]
        apply List.countP_congr
        intro x hx
        constructor
        · intro h2
          simp only [Bool.and_eq_true] at h2 ⊢
          exact ⟨h2.2, h2.1⟩
        · intro h2
          simp only [Bool.and_eq_true] at h2 ⊢
          exact ⟨h2.2, h2.1⟩
      rw [hcongr, ← hperm.countP_eq, ← hsplit, List.countP_append]
      have hzero : (sorted.take excess).countP
          (fun r => decide (r.id ∉ doomed)) = 0 := by
        rw [List.countP_eq_zero]
        intro a ha
        simp only [decide_eq_true_eq, Decidable.not_not]
        exact List.mem_map_of_mem Mem.id ha
      have hfull : (sorted.drop excess).countP
          (fun r => decide (r.id ∉ doomed)) = (sorted.drop excess).length := by
        rw [List.countP_eq_length]
        intro a ha
        simpa using hmem_drop_not a ha
      rw [hzero, hfull, List.length_drop]
      omega
    refine ⟨List.filter_sublist rows, ?_, ?_, ?_⟩
    · rw [hcnt_kept, min_eq_right (by omega)]
      omega
    · intro d hd hnd
      have hdid : d.id ∈ doomed := by
        by_contra hcon
        exact hnd (List.mem_filter.mpr ⟨hd, by simpa using hcon⟩)
      have hdchat : d.chat_id = c := by
        by_contra hcon
        exact hnonchat d hd hcon hdid
      refine ⟨hdchat, ?_⟩
      intro k hk hkchat
      have hkrows := (List.mem_filter.mp hk).1
      have hknot : k.id ∉ doomed := by
        have := (List.mem_filter.mp hk).2
        simpa using this
      have hkmine : k ∈ mine :=
        List.mem_filter.mpr ⟨hkrows, by simpa using hkchat⟩
      have hksorted : k ∈ sorted := hperm.symm.subset hkmine
      have hksplit : k ∈ sorted.take excess ++ sorted.drop excess := by
        rw [hsplit]; exact hksorted
      have hkdrop : k ∈ sorted.drop excess := by
        rcases List.mem_append.mp hksplit with hk2 | hk2
        · exact absurd (List.mem_map_of_mem Mem.id hk2) hknot
        · exact hk2
      have hdtake : d ∈ sorted.take excess := hdoomed_mem_take d hd hdid
      have hp2 : List.Pairwise (fun a b => keyLe a b = true)
          (sorted.take excess ++ sorted.drop excess) := by
        rw [hsplit]; exact hpair
      exact (List.pairwise_append.mp hp2).2.2 d hdtake k hkdrop
    · intro hgt
      have hlen1 := length_chat_split rows c
      have hlen2 := length_chat_split
        (rows.filter fun r => decide (r.id ∉ doomed)) c
      have hnonchat_eq : (rows.filter fun r => decide (r.id ∉ doomed)).countP
          (fun r => !(decide (r.chat_id = c)))
          = rows.countP fun r => !(decide (r.chat_id = c)) := by
        rw [List.countP_filter]
        apply List.countP_congr
        intro x hx
        constructor
        · intro h2
          exact ((Bool.and_eq_true _ _).mp h2).1
        · intro h2
          simp only [Bool.and_eq_true]
          refine ⟨h2, ?_⟩
          have hxc : ¬ x.chat_id = c := by simpa using h2
          simpa using hnonchat x hx hxc
      have hkept := hcnt_kept
      omega

theorem insertMemory_fresh (rows : List Mem) (nextId : Nat)
    (c cont : String) (sec : Sector) (tk : Option String) (now : Int)
    (h1 : (rows.map Mem.id).Nodup) (h2 : ∀ r ∈ rows, r.id < nextId) :
    ((insertMemory rows nextId c cont sec tk now).map Mem.id).Nodup
    ∧ ∀ r ∈ insertMemory rows nextId c cont sec tk now,
        r.id < nextId + 1 := by
  constructor
  · rw [insertMemory, List.map_append, List.nodup_append]
    refine ⟨h1, List.nodup_singleton _, ?_⟩
    intro a ha hb
    simp at hb
    subst hb
    obtain ⟨r, hr, hrid⟩ := List.mem_map.mp ha
    have := h2 r hr
    omega
  · intro r hr
    rw [insertMemory] at hr
    rcases List.mem_append.mp hr with hr | hr
    · exact Nat.lt_succ_of_lt (h2 r hr)
    · simp at hr
      subst hr
      simp

theorem insertFacts_fresh (facts : List String) (rows : List Mem)
    (nextId : Nat) (c : String) (now : Int)
    (h1 : (rows.map Mem.id).Nodup) (h2 : ∀ r ∈ rows, r.id < nextId) :
    (((insertFacts rows nextId c facts now).1.map Mem.id).Nodup)
    ∧ ∀ r ∈ (insertFacts rows nextId c facts now).1,
        r.id < (insertFacts rows nextId c facts now).2 := by
  induction facts generalizing rows nextId with
  | nil => exact ⟨h1, by simpa [insertFacts] using h2⟩
  | cons f rest ih =>
      have hstep : insertFacts rows nextId c (f :: rest) now
          = insertFacts (insertMemory rows nextId c f .semantic none now)
            (nextId + 1) c rest now := rfl
      rw [hstep]
      obtain ⟨g1, g2⟩ :=
        insertMemory_fresh rows nextId c f .semantic none now h1 h2
      exact ih _ _ g1 g2

theorem ingestInserts_nodup (rows : List Mem) (nextId : Nat)
    (c userMessage : String) (facts : List String) (now : Int)
    (h1 : (rows.map Mem.id).Nodup) (h2 : ∀ r ∈ rows, r.id < nextId) :
    ((ingestInserts rows nextId c userMessage facts now).map Mem.id).Nodup := by
  rw [ingestInserts]
  by_cases hcond : (20 < userMessage.length
      && !(userMessage.startsWith ("/"))) = true
  · simp only [hcond, if_true]
    obtain ⟨g1, g2⟩ := insertMemory_fresh rows nextId c
      (truncate userMessage 500) .episodic none now h1 h2
    exact (insertFacts_fresh facts _ _ c now g1 g2).1
  · simp only [Bool.not_eq_true] at hcond
    simp only [hcond, Bool.false_eq_true, if_false]
    exact (insertFacts_fresh facts _ _ c now h1 h2).1

/-- C4: after every `saveConversationTurn`, the chat holds at most
`MAX_MEMORIES_PER_CHAT = 200` memory rows; pruning only deletes rows (the
result is a sublist of the post-insert table), and when the turn's
insertions push the chat count above 200, the kept chat count is exactly
200 — so exactly `count − 200` rows are deleted (for a 201st memory,
exactly one) — and every deleted row belongs to this chat and precedes
every kept row of the chat in ascending `(salience, accessed_at)`
order. -/
theorem saveConversationTurn_cap (rows : List Mem) (nextId : Nat)
    (chatId userMessage : String) (facts : List String) (now : Int)
    (hnodup : (rows.map Mem.id).Nodup)
    (hbound : ∀ r ∈ rows, r.id < nextId) :
    memCount (saveConversationTurn rows nextId chatId userMessage facts now)
        chatId ≤ MAX_MEMORIES_PER_CHAT
    ∧ (saveConversationTurn rows nextId chatId userMessage facts now).Sublist
        (ingestInserts rows nextId chatId userMessage facts now)
    ∧ (MAX_MEMORIES_PER_CHAT
          < memCount (ingestInserts rows nextId chatId userMessage facts now)
            chatId →
        memCount (saveConversationTurn rows nextId chatId userMessage facts
            now) chatId = MAX_MEMORIES_PER_CHAT
        ∧ (saveConversationTurn rows nextId chatId userMessage facts
              now).length
            + (memCount (ingestInserts rows nextId chatId userMessage facts
                now) chatId - MAX_MEMORIES_PER_CHAT)
            = (ingestInserts rows nextId chatId userMessage facts now).length
        ∧ ∀ d ∈ ingestInserts rows nextId chatId userMessage facts now,
            d ∉ saveConversationTurn rows nextId chatId userMessage facts
              now →
            d.chat_id = chatId ∧
              ∀ k ∈ saveConversationTurn rows nextId chatId userMessage
                facts now, k.chat_id = chatId → keyLe d k = true) := by
  have hn := ingestInserts_nodup rows nextId chatId userMessage facts now
    hnodup hbound
  obtain ⟨hsub, hcnt, hmin, hlen⟩ := pruneExcess_spec
    (ingestInserts rows nextId chatId userMessage facts now) chatId hn
  rw [saveConversationTurn]
  refine ⟨?_, hsub, ?_⟩
  · rw [hcnt]
    exact min_le_right _ _
  · intro hgt
    exact ⟨by rw [hcnt, min_eq_right (by omega)], hlen hgt, hmin⟩

theorem saveConversationTurn_cap_witness :
    (([] : List Mem).map Mem.id).Nodup ∧
    memCount (saveConversationTurn [] 0 "chat"
        "please remember this rather long user message" [] 0) "chat"
      ≤ MAX_MEMORIES_PER_CHAT :=
  ⟨by simp,
   (saveConversationTurn_cap [] 0 "chat"
      "please remember this rather long user message" [] 0 (by simp)
      (by simp)).1⟩

/-- C9: `touchMemory` sets the targeted row's salience to
`min(salience + δ, 5.0)` (default δ = 0.1) and its `accessed_at` to now;
a touched row never exceeds the 5.0 ceiling, other rows are untouched,
and once a touch reaches the ceiling a second identical touch changes
nothing (idempotence up to the ceiling). -/
theorem touchMemory_spec (rows : List Mem) (id : Nat) (boost : ℚ)
    (now : Int) (hb : 0 ≤ boost) :
    (∀ r ∈ rows, r.id = id →
        { r with accessed_at := now,
                 salience := min (r.salience + boost) 5 }
          ∈ touchMemory rows id now boost)
    ∧ (∀ r ∈ rows, r.id ≠ id → r ∈ touchMemory rows id now boost)
    ∧ (∀ r2 ∈ touchMemory rows id now boost, r2.id = id → r2.salience ≤ 5)
    ∧ ((∀ r ∈ rows, r.id = id → 5 ≤ r.salience + boost) →
        touchMemory (touchMemory rows id now boost) id now boost
          = touchMemory rows id now boost) := by
  refine ⟨?_, ?_, ?_, ?_⟩
  · intro r hr hid
    exact List.mem_map.mpr ⟨r, hr, by simp [hid]⟩
  · intro r hr hid
    exact List.mem_map.mpr ⟨r, hr, by simp [hid]⟩
  · intro r2 h2 hid2
    obtain ⟨r, hr, heq⟩ := List.mem_map.mp h2
    by_cases h : r.id = id
    · rw [if_pos h] at heq
      rw [← heq]
      exact min_le_right _ _
    · rw [if_neg h] at heq
      rw [← heq] at hid2
      exact absurd hid2 h
  · intro hceil
    simp only [touchMemory, List.map_map]
    apply List.map_congr_left
    intro r hr
    by_cases h : r.id = id
    · have h5 : min (r.salience + boost) 5 = 5 :=
        min_eq_right (hceil r hr h)
      have h6 : min ((5 : ℚ) + boost) 5 = 5 := min_eq_right (by linarith)
      simp [Function.comp, h, h5, h6]
    · simp [Function.comp, h]

theorem touchMemory_spec_witness :
    (0 : ℚ) ≤ 1/10 ∧
    touchMemory (touchMemory
        [⟨7, "c", none, "x", Sector.episodic, 49/10, 0, 0⟩] 7 99 (1/10))
        7 99 (1/10)
      = touchMemory
        [⟨7, "c", none, "x", Sector.episodic, 49/10, 0, 0⟩] 7 99 (1/10) :=
  ⟨by norm_num,
   (touchMemory_spec [⟨7, "c", none, "x", Sector.episodic, 49/10, 0, 0⟩]
      7 (1/10) 99 (by norm_num)).2.2.2 (by
        intro r hr h
        simp at hr
        subst hr
        norm_num)⟩

end MemStore

namespace Decay

theorem newSalience_le (now : Int) (r : DRow) (h : 0 ≤ r.salience) :
    newSalience now r ≤ r.salience := by
  rw [newSalience]
  have h1 : (0 : ℝ) ≤ MEMORY_DECAY_FACTOR := by
    rw [MEMORY_DECAY_FACTOR]; norm_num
  have h2 : MEMORY_DECAY_FACTOR ≤ (1 : ℝ) := by
    rw [MEMORY_DECAY_FACTOR]; norm_num
  have h3 : (0 : ℝ) ≤ max 0 (((now - r.accessed_at : Int) : ℝ) / 3600) :=
    le_max_left _ _
  exact mul_le_of_le_one_right h (Real.rpow_le_one h1 h2 h3)

theorem decayRow_young (now : Int) (r : DRow)
    (hy : ¬ r.created_at < now - 86400) :
    decayRow now r = (some r, false, false) := by
  simp [decayRow, hy]

theorem decayRow_old_delete (now : Int) (r : DRow)
    (ho : r.created_at < now - 86400)
    (h : newSalience now r < MEMORY_MIN_SALIENCE) :
    decayRow now r = (none, false, true) := by
  simp [decayRow, ho, h]

theorem decayRow_old_update (now : Int) (r : DRow)
    (ho : r.created_at < now - 86400)
    (h1 : ¬ newSalience now r < MEMORY_MIN_SALIENCE)
    (h2 : newSalience now r < r.salience - 0.001) :
    decayRow now r
      = (some { r with salience := newSalience now r }, true, false) := by
  simp [decayRow, ho, h1, h2]

theorem decayRow_old_keep (now : Int) (r : DRow)
    (ho : r.created_at < now - 86400)
    (h1 : ¬ newSalience now r < MEMORY_MIN_SALIENCE)
    (h2 : ¬ newSalience now r < r.salience - 0.001) :
    decayRow now r = (some r, false, false) := by
  simp [decayRow, ho, h1, h2]

theorem decayRow_surv_min (now : Int) (r : DRow)
    (hmin : MEMORY_MIN_SALIENCE ≤ r.salience) (r2 : DRow)
    (h : (decayRow now r).1 = some r2) :
    MEMORY_MIN_SALIENCE ≤ r2.salience := by
  by_cases ho : r.created_at < now - 86400
  · by_cases h1 : newSalience now r < MEMORY_MIN_SALIENCE
    · rw [decayRow_old_delete now r ho h1] at h
      simp at h
    · by_cases h2 : newSalience now r < r.salience - 0.001
      · rw [decayRow_old_update now r ho h1 h2] at h
        simp at h
        rw [← h]
        simpa using le_of_not_lt h1
      · rw [decayRow_old_keep now r ho h1 h2] at h
        simp at h
        rw [← h]
        exact hmin
  · rw [decayRow_young now r ho] at h
    simp at h
    rw [← h]
    exact hmin

theorem decayRow_none_iff (now : Int) (r : DRow) :
    (decayRow now r).1 = none ↔ (decayRow now r).2.2 = true := by
  by_cases ho : r.created_at < now - 86400
  · by_cases h1 : newSalience now r < MEMORY_MIN_SALIENCE
    · rw [decayRow_old_delete now r ho h1]
      simp
    · by_cases h2 : newSalience now r < r.salience - 0.001
      · rw [decayRow_old_update now r ho h1 h2]
        simp
      · rw [decayRow_old_keep now r ho h1 h2]
        simp
  · rw [decayRow_young now r ho]
    simp

theorem dreach_min_salience {rows : List DRow} (h : DReach rows) :
    ∀ r ∈ rows, MEMORY_MIN_SALIENCE ≤ r.salience := by
  induction h with
  | nil => intro r hr; simp at hr
  | insert rows id now h ih =>
      intro r hr
      rcases List.mem_append.mp hr with hr | hr
      · exact ih r hr
      · simp at hr
        subst hr
        rw [MEMORY_MIN_SALIENCE]
        norm_num
  | touch rows id boost now hb h ih =>
      intro r hr
      obtain ⟨r0, hr0, heq⟩ := List.mem_map.mp hr
      by_cases hid : r0.id = id
      · rw [if_pos hid] at heq
        rw [← heq]
        have := ih r0 hr0
        simp only []
        apply le_min
        · linarith
        · rw [MEMORY_MIN_SALIENCE]; norm_num
      · rw [if_neg hid] at heq
        rw [← heq]
        exact ih r0 hr0
  | decay rows now h ih =>
      intro r hr
      obtain ⟨r0, hr0, heq⟩ := List.mem_filterMap.mp hr
      exact decayRow_surv_min now r0 (ih r0 hr0) r heq
  | prune rows p h ih =>
      intro r hr
      exact ih r (List.mem_filter.mp hr).1

theorem decay_length (now : Int) (rows : List DRow) :
    (decayAllMemories now rows).1.length + (decayAllMemories now rows).2.2
      = rows.length := by
  simp only [decayAllMemories]
  induction rows with
  | nil => simp
  | cons r t ih =>
      rw [List.filterMap_cons, List.countP_cons]
      rcases hc : (decayRow now r).1 with _ | r2
      · have hflag : (decayRow now r).2.2 = true :=
          (decayRow_none_iff now r).mp hc
        simp [hc, hflag]
        omega
      · have hflag : ¬ (decayRow now r).2.2 = true := by
          intro hcon
          have := (decayRow_none_iff now r).mpr hcon
          rw [hc] at this
          simp at this
        simp [hc, hflag]
        omega

/-- C3: `decayAllMemories` examines exactly the rows older than 24 h
(younger rows pass through unchanged and uncounted); for each old row it
applies `salience · 0.98 ^ hours_since_last_access`, deleting below
`MEMORY_MIN_SALIENCE = 0.1`, updating only on a decrease of more than
0.001, and keeping the row otherwise; survivors plus the deleted count
add up to the table; and — for every table produced only by
`insertMemory` (salience 1.0), nonnegative touches, sweeps and pruning —
no surviving row of any age has salience below 0.1. -/
theorem decayAllMemories_spec (now : Int) (rows : List DRow)
    (hreach : DReach rows) :
    (∀ r ∈ rows, ¬ r.created_at < now - 86400 →
        r ∈ (decayAllMemories now rows).1
          ∧ decayRow now r = (some r, false, false))
    ∧ (∀ r ∈ rows, r.created_at < now - 86400 →
        (newSalience now r < MEMORY_MIN_SALIENCE →
            decayRow now r = (none, false, true))
        ∧ (MEMORY_MIN_SALIENCE ≤ newSalience now r →
            newSalience now r < r.salience - 0.001 →
            decayRow now r
                = (some { r with salience := newSalience now r }, true, false)
              ∧ { r with salience := newSalience now r }
                  ∈ (decayAllMemories now rows).1)
        ∧ (MEMORY_MIN_SALIENCE ≤ newSalience now r →
            r.salience - 0.001 ≤ newSalience now r →
            decayRow now r = (some r, false, false)
              ∧ r ∈ (decayAllMemories now rows).1))
    ∧ (decayAllMemories now rows).1.length + (decayAllMemories now rows).2.2
        = rows.length
    ∧ ∀ r2 ∈ (decayAllMemories now rows).1,
        MEMORY_MIN_SALIENCE ≤ r2.salience := by
  refine ⟨?_, ?_, decay_length now rows, ?_⟩
  · intro r hr hy
    have he := decayRow_young now r hy
    constructor
    · exact List.mem_filterMap.mpr ⟨r, hr, by rw [he]⟩
    · exact he
  · intro r hr ho
    refine ⟨fun h1 => decayRow_old_delete now r ho h1, ?_, ?_⟩
    · intro h1 h2
      have he := decayRow_old_update now r ho (not_lt.mpr h1) h2
      exact ⟨he, List.mem_filterMap.mpr ⟨r, hr, by rw [he]⟩⟩
    · intro h1 h2
      have he := decayRow_old_keep now r ho (not_lt.mpr h1) (not_lt.mpr h2)
      exact ⟨he, List.mem_filterMap.mpr ⟨r, hr, by rw [he]⟩⟩
  · intro r2 hr2
    obtain ⟨r0, hr0, heq⟩ := List.mem_filterMap.mp hr2
    exact decayRow_surv_min now r0 (dreach_min_salience hreach r0 hr0) r2 heq

theorem decayAllMemories_spec_witness :
    DReach [⟨0, 1, 0, 0⟩] ∧
      ∀ r2 ∈ (decayAllMemories 90000 [⟨0, 1, 0, 0⟩]).1,
        MEMORY_MIN_SALIENCE ≤ r2.salience :=
  have hre : DReach [⟨0, 1, 0, 0⟩] := by
    have h := DReach.insert [] 0 0 DReach.nil
    simpa [insertMemory] using h
  ⟨hre, (decayAllMemories_spec 90000 _ hre).2.2.2⟩

end Decay

namespace Sched

theorem computeNextRun_gt (fire : Nat → Bool) (afterMs : Nat)
    (h : ∃ m, afterMs < 60000 * m ∧ fire m = true) :
    afterMs / 1000 < computeNextRun fire afterMs h := by
  rw [computeNextRun, nextFireMs]
  have hfind := (Nat.find_spec h).1
  omega

/-- C5: for a scheduled task whose executor completes successfully, the
post-run update stores `next_run = computeNextRun(schedule)` evaluated at
the completion instant, `last_run` is that instant in seconds, and the
stored `next_run` is strictly greater than it — `next_run` of the task
advances past the instant at which the post-run update is made. -/
theorem scheduled_next_run_future (t : STask) (r : String)
    (completionMs : Nat)
    (h : ∃ m, completionMs < 60000 * m ∧ t.schedule m = true) :
    (runDueTask t (Except.ok r) completionMs h).next_run
        = computeNextRun t.schedule completionMs h
    ∧ completionMs / 1000
        < (runDueTask t (Except.ok r) completionMs h).next_run
    ∧ (runDueTask t (Except.ok r) completionMs h).last_run
        = some (completionMs / 1000) := by
  refine ⟨rfl, ?_, rfl⟩
  exact computeNextRun_gt t.schedule completionMs h

theorem scheduled_next_run_future_witness :
    123456 / 1000
      < (runDueTask
          ⟨"t1", "c", "p", fun _ => true, 0, none, none, false, 0⟩
          (Except.ok ("done")) 123456 ⟨3, by decide⟩).next_run :=
  (scheduled_next_run_future
    ⟨"t1", "c", "p", fun _ => true, 0, none, none, false, 0⟩
    ("done") 123456 ⟨3, by decide⟩).2.1

end Sched

namespace Agent

/-- C7: with an abort signal already tripped at entry, `runAgent`
returns immediately with error "cancelled", text "Request was
cancelled.", zero cost, duration and turns and no usage, the session id
passed through, and zero invocations of the underlying `query` — no work
is done, whatever events the query would have produced. -/
theorem runAgent_early_cancel (sessionId : Option String)
    (events : List SDKMsg) (elapsedMs : Nat) :
    runAgent true sessionId events elapsedMs
      = ({ text := "Request was cancelled.", sessionId := sessionId,
           costUsd := 0, durationMs := 0, numTurns := 0, usage := none,
           error := some ("cancelled") }, 0) := rfl

end Agent

namespace Split

theorem lastIndexOf_le (l : List Char) (ch : Char) :
    ∀ pos, lastIndexOf l ch pos ≤ (pos : Int) := by
  intro pos
  induction pos with
  | zero =>
      rw [lastIndexOf]
      split <;> omega
  | succ n ih =>
      rw [lastIndexOf]
      split
      · omega
      · have := ih
        omega

theorem chooseSplit_bounds (remaining : List Char) (maxLen : Nat)
    (hml : 1 ≤ maxLen) :
    1 ≤ chooseSplit remaining maxLen
      ∧ chooseSplit remaining maxLen ≤ maxLen := by
  have h1le := lastIndexOf_le remaining '\n' maxLen
  have h2le := lastIndexOf_le remaining ' ' maxLen
  simp only [chooseSplit]
  by_cases c1 : 10 * lastIndexOf remaining '\n' maxLen < 3 * (maxLen : Int)
  · rw [if_pos c1]
    by_cases c2 : 10 * lastIndexOf remaining ' ' maxLen < 3 * (maxLen : Int)
    · rw [if_pos c2]
      omega
    · rw [if_neg c2]
      omega
  · rw [if_neg c1, if_neg c1]
    omega

theorem splitGo_some (maxLen : Nat) (hml : 1 ≤ maxLen) :
    ∀ fuel remaining, remaining.length < fuel →
      (splitGo maxLen fuel remaining).isSome = true := by
  intro fuel
  induction fuel with
  | zero =>
      intro remaining h
      omega
  | succ n ih =>
      intro remaining h
      rw [splitGo]
      by_cases h0 : remaining.length = 0
      · rw [if_pos h0]
        rfl
      · rw [if_neg h0]
        by_cases h1 : remaining.length ≤ maxLen
        · rw [if_pos h1]
          rfl
        · rw [if_neg h1]
          rw [Option.isSome_map']
          apply ih
          have hb := chooseSplit_bounds remaining maxLen hml
          have hdw : ((remaining.drop (chooseSplit remaining maxLen)).dropWhile
              isWs).length ≤ (remaining.drop (chooseSplit remaining maxLen)).length :=
            List.Sublist.length_le (List.dropWhile_sublist _)
          have hdr : (remaining.drop (chooseSplit remaining maxLen)).length
              = remaining.length - chooseSplit remaining maxLen :=
            List.length_drop _ _
          omega

/-- C10: for every input and every `maxLen ≥ 1`, `splitMessage`
terminates — each loop pass consumes at least one character (the chosen
split index is at least 1, or the forced `maxLen`), so the fuelled loop
returns a result. -/
theorem splitMessage_terminates (text : List Char) (maxLen : Nat)
    (hml : 1 ≤ maxLen) : (splitMessage text maxLen).isSome = true := by
  rw [splitMessage]
  by_cases h : text.length ≤ maxLen
  · rw [if_pos h]
    rfl
  · rw [if_neg h]
    exact splitGo_some maxLen hml (text.length + 1) text (by omega)

theorem splitMessage_terminates_witness :
    1 ≤ 1 ∧ (splitMessage [Char.ofNat 104, Char.ofNat 105, Char.ofNat 33]
      1).isSome = true :=
  ⟨le_refl 1,
   splitMessage_terminates [Char.ofNat 104, Char.ofNat 105, Char.ofNat 33]
     1 (le_refl 1)⟩

theorem splitGo_spec (maxLen : Nat) :
    ∀ fuel remaining chunks,
      splitGo maxLen fuel remaining = some chunks →
      (∀ ch ∈ chunks, ch.length ≤ maxLen)
      ∧ ∃ seps, seps.length = chunks.length
          ∧ (∀ s ∈ seps, s.all isWs = true)
          ∧ joinInterleave chunks seps = remaining := by
  intro fuel
  induction fuel with
  | zero =>
      intro remaining chunks h
      rw [splitGo] at h
      simp at h
  | succ n ih =>
      intro remaining chunks h
      rw [splitGo] at h
      by_cases h0 : remaining.length = 0
      · rw [if_pos h0] at h
        have hrem : remaining = [] := List.length_eq_zero.mp h0
        obtain rfl : ([] : List (List Char)) = chunks := Option.some_inj.mp h
        exact ⟨by simp, [], by simp [joinInterleave, hrem]⟩
      · rw [if_neg h0] at h
        by_cases h1 : remaining.length ≤ maxLen
        · rw [if_pos h1] at h
          obtain rfl : [remaining] = chunks := Option.some_inj.mp h
          refine ⟨by simpa using h1, [[]], by simp, by simp, ?_⟩
          simp [joinInterleave]
        · rw [if_neg h1] at h
          simp only [Option.map_eq_some'] at h
          obtain ⟨cs, hcs, rfl⟩ := h
          obtain ⟨hb, seps, hlen, hws, hjoin⟩ := ih _ _ hcs
          refine ⟨?_, ((remaining.drop (chooseSplit remaining maxLen)).takeWhile
              isWs) :: seps, ?_, ?_, ?_⟩
          · intro ch hch
            rcases List.mem_cons.mp hch with rfl | hch
            · have hml : 1 ≤ maxLen ∨ maxLen = 0 := by omega
              have : (remaining.take (chooseSplit remaining maxLen)).length
                  ≤ chooseSplit remaining maxLen := by
                simp [List.length_take]
              rcases hml with hml | hml
              · have := (chooseSplit_bounds remaining maxLen hml).2
                omega
              · -- maxLen = 0: chooseSplit could still be 0; take 0 has length 0
                have hcb : chooseSplit remaining maxLen ≤ maxLen ∨
                    True := Or.inr trivial
                -- directly: with maxLen = 0 the forced index is 0
                subst hml
                have h30 : ¬ remaining.length ≤ 0 := h1
                have : chooseSplit remaining 0 = 0 ∨
                    chooseSplit remaining 0 ≤ 0 := by
                  right
                  have h1le := lastIndexOf_le remaining '\n' 0
                  have h2le := lastIndexOf_le remaining ' ' 0
                  simp only [chooseSplit]
                  by_cases c1 : 10 * lastIndexOf remaining '\n' 0
                      < 3 * ((0 : Nat) : Int)
                  · rw [if_pos c1]
                    by_cases c2 : 10 * lastIndexOf remaining ' ' 0
                        < 3 * ((0 : Nat) : Int)
                    · rw [if_pos c2]
                      omega
                    · rw [if_neg c2]
                      omega
                  · rw [if_neg c1, if_neg c1]
                    omega
                omega
            · exact hb ch hch
          · simp [hlen]
          · intro s hs
            rcases List.mem_cons.mp hs with rfl | hs
            · rw [List.all_eq_true]
              intro c hc
              exact List.mem_takeWhile_imp hc
            · exact hws s hs
          · rw [joinInterleave, hjoin]
            rw [List.takeWhile_append_dropWhile]
            exact List.take_append_drop _ _

/-- C8: `splitMessage` at the production window `MAX_MESSAGE_LENGTH =
4096` always succeeds; no produced chunk exceeds 4096 code units, and
re-joining the chunks with the whitespace runs the splitter trimmed at
each boundary reconstructs the original text exactly (in particular a
prefix of it). The split points follow the newline / space / forced
policy of `chooseSplit`. -/
theorem splitMessage_chunks (text : List Char) :
    ∃ chunks, splitMessage text MAX_MESSAGE_LENGTH = some chunks
      ∧ (∀ ch ∈ chunks, ch.length ≤ MAX_MESSAGE_LENGTH)
      ∧ ∃ seps, seps.length = chunks.length
          ∧ (∀ s ∈ seps, s.all isWs = true)
          ∧ joinInterleave chunks seps = text := by
  have hsome := splitMessage_terminates text MAX_MESSAGE_LENGTH
    (by rw [MAX_MESSAGE_LENGTH]; omega)
  obtain ⟨chunks, hchunks⟩ := Option.isSome_iff_exists.mp hsome
  refine ⟨chunks, hchunks, ?_⟩
  rw [splitMessage] at hchunks
  by_cases h : text.length ≤ MAX_MESSAGE_LENGTH
  · rw [if_pos h] at hchunks
    obtain rfl : [text] = chunks := Option.some_inj.mp hchunks
    refine ⟨by simpa using h, [[]], by simp, by simp, ?_⟩
    simp [joinInterleave]
  · rw [if_neg h] at hchunks
    exact splitGo_spec MAX_MESSAGE_LENGTH _ _ _ hchunks

end Split
